import Mathlib

/-!
Verification of the bacnet-asn1-parser repository.

This file gives a shallow embedding, in Lean 4, of the two-stage pipeline of
src/index.js: the recursive-descent parser for the BACnet ASN.1 subset and the
normalization engine, together with the name-conversion helper
src/to-baclib-name.js. JavaScript numbers are idealized as exact rationals
extended with NaN and signed infinities; JavaScript values appearing in parser
output and normalization results are modelled by an explicit dynamic value type
whose objects are key-value lists in insertion order, mirroring object key
order. Regex matching in the source is compiled by hand to deterministic
matchers; every regex used by the source has character classes disjoint from
the characters that follow them, so greedy matching without backtracking is
exact.
-/

namespace Bacnet

/-- A JavaScript number: NaN, a signed infinity, or a finite value idealized
as an exact rational (the source applies parseFloat and parseInt only to short
decimal literals, and all special-case constants are integers, so rounding of
IEEE doubles never shows up in the quantities the claims mention). -/
inductive JSNum where
  | nan
  | ninf
  | pinf
  | num (q : ℚ)
deriving Repr, DecidableEq

/-- Strict greater-than with JavaScript semantics: comparisons with NaN are
false, infinities compare as usual. -/
def JSNum.jsGt : JSNum → JSNum → Bool
  | .nan, _ => false
  | _, .nan => false
  | .pinf, .pinf => false
  | .pinf, _ => true
  | .ninf, _ => false
  | .num _, .pinf => false
  | .num _, .ninf => true
  | .num a, .num b => b < a

/-- Strict equality with JavaScript semantics: NaN is not equal to anything. -/
def JSNum.jsEq : JSNum → JSNum → Bool
  | .nan, _ => false
  | _, .nan => false
  | a, b => a = b

/-- JavaScript subtraction on the idealized numbers. -/
def JSNum.jsSub : JSNum → JSNum → JSNum
  | .nan, _ => .nan
  | _, .nan => .nan
  | .pinf, .pinf => .nan
  | .pinf, _ => .pinf
  | .ninf, .ninf => .nan
  | .ninf, _ => .ninf
  | .num _, .pinf => .ninf
  | .num _, .ninf => .pinf
  | .num a, .num b => .num (a - b)

/-- JavaScript strictly-negative test; false for NaN. -/
def JSNum.isNeg : JSNum → Bool
  | .num q => q < 0
  | .ninf => true
  | _ => false

/-- Successor on JavaScript numbers (the source computes max + 1). -/
def JSNum.add1 : JSNum → JSNum
  | .nan => .nan
  | .ninf => .ninf
  | .pinf => .pinf
  | .num q => .num (q + 1)

/-- Binary maximum with JavaScript Math.max semantics: NaN absorbs. -/
def JSNum.jsMax2 : JSNum → JSNum → JSNum
  | .nan, _ => .nan
  | _, .nan => .nan
  | .pinf, _ => .pinf
  | _, .pinf => .pinf
  | .ninf, b => b
  | a, .ninf => a
  | .num a, .num b => .num (max a b)

/-- Math.max over a list of arguments; the empty call yields negative
infinity, NaN absorbs. -/
def jsMathMax (l : List JSNum) : JSNum :=
  l.foldl JSNum.jsMax2 .ninf

/-- A JavaScript value as it occurs in raw parser output and in normalization
results. Objects are association lists in key insertion order. -/
inductive JSVal where
  | str (s : String)
  | numv (n : JSNum)
  | boolv (b : Bool)
  | nullv
  | undef
  | arr (xs : List JSVal)
  | obj (fields : List (String × JSVal))

/-- First binding of a key in an object field list. -/
def lookupField (fields : List (String × JSVal)) (k : String) : Option JSVal :=
  match fields with
  | [] => none
  | (k', v) :: rest => if k' = k then some v else lookupField rest k

/-- JavaScript property assignment on an object modelled as a field list: an
existing key is updated in place, a new key is appended at the end. -/
def objSet (fields : List (String × JSVal)) (k : String) (v : JSVal) :
    List (String × JSVal) :=
  match fields with
  | [] => [(k, v)]
  | (k', v') :: rest => if k' = k then (k, v) :: rest else (k', v') :: objSet rest k v

/-- The keys of an object field list, in order. -/
def objKeys (fields : List (String × JSVal)) : List String :=
  fields.map Prod.fst

/-- JavaScript truthiness of a value. -/
def JSVal.truthy : JSVal → Bool
  | .str s => !(s = "")
  | .numv .nan => false
  | .numv (.num q) => !(q = 0)
  | .numv _ => true
  | .boolv b => b
  | .nullv => false
  | .undef => false
  | .arr _ => true
  | .obj _ => true

/-- The series marker of a raw definition: SEQUENCE OF sets true, SEQUENCE
SIZE(n) OF records the parsed count n. -/
inductive Series where
  | unbounded
  | count (n : ℕ)
deriving Repr, DecidableEq

/-- Truthiness of the series marker as used by the normalizer: true is truthy,
a numeric count is truthy exactly when nonzero. -/
def Series.truthy : Series → Bool
  | .unbounded => true
  | .count n => !(n = 0)

/-- The series marker as a JavaScript value. -/
def Series.toVal : Series → JSVal
  | .unbounded => .boolv true
  | .count n => .numv (.num n)

/-- A parsed range or size constraint. -/
structure JSRange where
  min : JSNum
  max : JSNum
deriving Repr, DecidableEq

/-- The scalar fields a raw definition or item can carry. Absent JavaScript
properties are modelled as none; the parser populates a subset depending on
context. -/
structure RawCore where
  name : Option String := none
  type : Option String := none
  primitive : Option Int := none
  series : Option Series := none
  range : Option JSRange := none
  size : Option JSRange := none
  extensible : Bool := false
  comment : Option String := none
  number : Option JSNum := none
  optional : Bool := false
deriving Repr, DecidableEq

/-- A raw definition as produced by parse: scalar fields plus an optional list
of child items, themselves raw definitions. -/
inductive RawDef where
  | mk (core : RawCore) (items : Option (List RawDef))

/-- The scalar fields of a raw definition. -/
def RawDef.core : RawDef → RawCore
  | .mk c _ => c

/-- The child items of a raw definition, when present. -/
def RawDef.items : RawDef → Option (List RawDef)
  | .mk _ i => i

/-! ## Name conversion: src/to-baclib-name.js

The conversion runs a fixed sequence of global regex replacements. Each
replacement regex here has a first character class disjoint from the classes
that may follow, so a single greedy left-to-right pass that skips past each
match reproduces the JavaScript global-replace semantics exactly. -/

/-- ASCII uppercase letter, the class written as A-Z in the source regexes. -/
def isUpperA (c : Char) : Bool := 'A' ≤ c && c ≤ 'Z'

/-- ASCII lowercase letter. -/
def isLowerA (c : Char) : Bool := 'a' ≤ c && c ≤ 'z'

/-- ASCII decimal digit. -/
def isDigitA (c : Char) : Bool := '0' ≤ c && c ≤ '9'

/-- ASCII lowering, as toLowerCase acts on the ASCII-only names produced by
the parser. -/
def toLowerA (c : Char) : Char :=
  if isUpperA c then Char.ofNat (c.toNat + 32) else c

/-- Global replacement of the literal BACnet by Bacnet, left to right,
resuming after each match. -/
def replaceBACnet : List Char → List Char
  | 'B' :: 'A' :: 'C' :: 'n' :: 'e' :: 't' :: rest =>
      'B' :: 'a' :: 'c' :: 'n' :: 'e' :: 't' :: replaceBACnet rest
  | c :: rest => c :: replaceBACnet rest
  | [] => []

/-- Global replacement inserting a dash between a lowercase letter or digit
and a following uppercase letter. -/
def kebabLowerUpper : List Char → List Char
  | c1 :: c2 :: rest =>
      if (isLowerA c1 || isDigitA c1) && isUpperA c2 then
        c1 :: '-' :: c2 :: kebabLowerUpper rest
      else
        c1 :: kebabLowerUpper (c2 :: rest)
  | l => l

/-- Global replacement inserting a dash between an uppercase letter and a
following uppercase-lowercase pair. -/
def kebabUpperUpperLower : List Char → List Char
  | c1 :: c2 :: c3 :: rest =>
      if isUpperA c1 && isUpperA c2 && isLowerA c3 then
        c1 :: '-' :: c2 :: c3 :: kebabUpperUpperLower rest
      else
        c1 :: kebabUpperUpperLower (c2 :: c3 :: rest)
  | l => l

/-- Global replacement inserting a dash between a letter and a following
digit. -/
def kebabLetterDigit : List Char → List Char
  | c1 :: c2 :: rest =>
      if (isLowerA c1 || isUpperA c1) && isDigitA c2 then
        c1 :: '-' :: c2 :: kebabLetterDigit rest
      else
        c1 :: kebabLetterDigit (c2 :: rest)
  | l => l

/-- Replacement of a leading BACnet with an optional trailing dash by the
given replacement characters. -/
def stripLeadingBACnet (repl : List Char) : List Char → List Char
  | 'B' :: 'A' :: 'C' :: 'n' :: 'e' :: 't' :: rest =>
      match rest with
      | '-' :: rest' => repl ++ rest'
      | _ => repl ++ rest
  | l => l

/-- The name conversion of src/to-baclib-name.js. The source also accepts
true and integer prefixes, which it first turns into replacement strings; the
parser pipeline only ever passes undefined or false, so the argument here is
the normalized form: none models an undefined prefix (keep the leading
BACnet), some p models a string prefix (false is normalized by the source to
the empty string). -/
def toBaclibName (s : String) (pfx : Option String) : String :=
  let cs :=
    match pfx with
    | some p => stripLeadingBACnet p.toList s.toList
    | none => s.toList
  let result := kebabUpperUpperLower (kebabLowerUpper (replaceBACnet cs))
  let result :=
    if cs.head?.any isUpperA then kebabLetterDigit result else result
  String.mk (result.map toLowerA)

/-! ## Normalization engine: src/index.js lines 400-646 -/

/-- The normalizeItem function of src/index.js: converts the raw name and
keeps the original as an alias when the conversion changed it. The source
raises when the name property is not a string; an absent name models that
case. -/
def normalizeItem (d : RawDef) (pfx : Option String) :
    Except String (List (String × JSVal)) :=
  match d.core.name with
  | none => .error "Definition must have a name string."
  | some aliasName =>
      let nm := toBaclibName aliasName pfx
      .ok (if aliasName = nm then [("name", .str nm)]
           else [("alias", .str aliasName), ("name", .str nm)])

/-- Whitespace as matched by the backslash-s class in the source regexes on
validated content: space, tab, newline, and the remaining ASCII space-like
characters (which validation has already excluded, but the class is kept
complete). -/
def jsSpace (c : Char) : Bool :=
  c = ' ' || c = '\t' || c = '\n' || c = '\r' || c = '\x0b' || c = '\x0c'

/-- Dropping a while-prefix never lengthens a list. -/
theorem dropWhile_length_le (p : Char → Bool) (l : List Char) :
    (l.dropWhile p).length ≤ l.length := by
  induction l with
  | nil => simp [List.dropWhile]
  | cons c rest ih =>
      simp only [List.dropWhile]
      split
      · exact Nat.le_succ_of_le ih
      · exact Nat.le_refl _

/-- Global replacement collapsing every run of characters of a class into one
space; the flag records being inside a run already emitted. -/
def collapseRuns (p : Char → Bool) : Bool → List Char → List Char
  | _, [] => []
  | inRun, c :: rest =>
      if p c then
        if inRun then collapseRuns p true rest
        else ' ' :: collapseRuns p true rest
      else c :: collapseRuns p false rest

/-- Global replacement collapsing every whitespace run into one space, as the
comment is normalized before matching the standard range sentence. -/
def collapseWs (l : List Char) : List Char :=
  collapseRuns jsSpace false l

/-- Consumes an exact literal prefix. -/
def chompLit : List Char → List Char → Option (List Char)
  | [], cs => some cs
  | p :: ps, c :: cs => if c = p then chompLit ps cs else none
  | _ :: _, [] => none

/-- Consumes a nonempty run of ASCII digits and returns their decimal value. -/
def chompDigits (cs : List Char) : Option (ℕ × List Char) :=
  let ds := cs.takeWhile isDigitA
  if ds = [] then none
  else some (ds.foldl (fun n c => 10 * n + (c.toNat - '0'.toNat)) 0,
             cs.dropWhile isDigitA)

/-- The anchored match of the standard BACnet range sentence used by
enhanceKnownTypes: Enumerated values A-B are reserved for definition by
ASHRAE. Enumerated values C-D may be used by others. Returns the four numbers
when the prefix matches. -/
def matchAshrae (cs : List Char) : Option (ℕ × ℕ × ℕ × ℕ) := do
  let cs ← chompLit "Enumerated values ".toList cs
  let (a, cs) ← chompDigits cs
  let cs ← chompLit "-".toList cs
  let (b, cs) ← chompDigits cs
  let cs ← chompLit " are reserved for definition by ASHRAE. Enumerated values ".toList cs
  let (c, cs) ← chompDigits cs
  let cs ← chompLit "-".toList cs
  let (d, cs) ← chompDigits cs
  let _ ← chompLit " may be used by others".toList cs
  pure (a, b, c, d)

/-- Builds the object rendering of a from-to range pair. -/
def fromTo (a b : ℚ) : JSVal :=
  .obj [("from", .numv (.num a)), ("to", .numv (.num b))]

/-- The enhanceKnownTypes function of src/index.js: special-cases a fixed set
of well-known names, then for extensible definitions installs the placeholder
proprietary range and, for enumerations whose comment matches the standard
sentence, the comment-derived bounds. The source mutates the traits object in
place; here the updated field list is returned. -/
def enhanceKnownTypes (d : RawDef) (traits : List (String × JSVal)) :
    List (String × JSVal) :=
  let nm := d.core.name
  if nm = some "BACnetEngineeringUnits" then
    objSet (objSet traits "maximum" (.numv (.num 65535)))
      "proprietary" (.arr [fromTo 256 47807, fromTo 50000 65535])
  else if nm = some "BACnetPropertyIdentifier" then
    objSet (objSet traits "maximum" (.numv (.num 4294967295)))
      "proprietary" (fromTo 512 4194303)
  else if nm = some "BACnetAuditOperationFlags" then
    let len := (jsMathMax ((d.items.getD []).map
      (fun i => (i.core.number).getD .nan))).add1
    objSet (objSet traits "length"
        (.obj [("minimum", .numv len), ("maximum", .numv (.num 64))]))
      "proprietary" (fromTo 32 63)
  else if nm = some "BACnetObjectTypesSupported" then
    objSet (objSet traits "length"
        (.obj [("minimum", .numv (.num 18)), ("maximum", .numv (.num 1024))]))
      "proprietary" (fromTo 128 1023)
  else if nm = some "BACnetServicesSupported" then
    objSet traits "length"
      (.obj [("minimum", .numv (.num 35)), ("maximum", .numv (.num 512))])
  else if !d.core.extensible then traits
  else
    let traits := objSet traits "proprietary" (fromTo 1 0)
    if d.core.type = some "Enumerated" then
      match d.core.comment.bind (fun c => matchAshrae (collapseWs c.toList)) with
      | some (m1, _, m3, m4) =>
          let traits :=
            if m1 ≠ 0 then objSet traits "minimum" (.numv (.num m1)) else traits
          let traits := objSet traits "maximum" (.numv (.num (m4 + 1)))
          objSet traits "proprietary" (fromTo m3 m4)
      | none => traits
    else traits

/-- Property name of the items array per kind tag, as chosen by the switch in
normalizeDefinition. -/
def itemsNameOf : String → Option String
  | "BitString" => some "bits"
  | "Enumerated" => some "values"
  | "CHOICE" => some "options"
  | "SEQUENCE" => some "fields"
  | _ => none

/-- Property name of the item number per kind tag, set only for the two
simple kinds. -/
def itemsNumberOf : String → Option String
  | "BitString" => some "position"
  | "Enumerated" => some "constant"
  | _ => none

/-- The traits computed by the switch in normalizeDefinition for numeric and
string kinds; none for every other kind. -/
def switchTraits (ty : String) (core : RawCore) : Option (List (String × JSVal)) :=
  if ty = "Unsigned" || ty = "Integer" || ty = "Real" || ty = "Double" then
    core.range.map (fun r =>
      [("minimum", .numv r.min), ("maximum", .numv r.max)])
  else if ty = "OctetString" || ty = "CharacterString" then
    core.size.map (fun sz =>
      [("length",
        if sz.min.jsEq sz.max then .numv sz.max
        else .obj [("minimum", .numv sz.min), ("maximum", .numv sz.max)])])
  else none

/-- The item number as the JavaScript value assigned by the source: the raw
number when present, undefined otherwise. -/
def numberVal (o : Option JSNum) : JSVal :=
  match o with
  | none => .undef
  | some n => .numv n

/-- The context-tag guard of normalizeDefinition: Number.isInteger and
nonnegative. -/
def isNonnegInt (o : Option JSNum) : Bool :=
  match o with
  | some (.num q) => q.den = 1 && 0 ≤ q
  | _ => false

/-- The subtract-then-test-negative composition evaluated in one pattern
match (shown equal to the composition below), so that concrete runs compute
by kernel reduction. -/
def JSNum.subNeg : JSNum → JSNum → Bool
  | .nan, _ => false
  | _, .nan => false
  | .ninf, .ninf => false
  | .ninf, _ => true
  | .pinf, _ => false
  | .num _, .ninf => false
  | .num _, .pinf => true
  | .num a, .num b => a < b

/-- The one-step comparator agrees with subtracting and testing the sign, as
the source comparator computes it. -/
theorem JSNum.subNeg_eq (a b : JSNum) : a.subNeg b = (a.jsSub b).isNeg := by
  cases a <;> cases b <;>
    simp [JSNum.subNeg, JSNum.jsSub, JSNum.isNeg, sub_neg]

/-- The comparator a.number minus b.number being strictly negative, with an
absent number behaving as NaN; a NaN comparator result counts as zero, so it
is not strictly negative. -/
def numberLt (a b : RawDef) : Bool :=
  ((a.core.number).getD .nan).subNeg ((b.core.number).getD .nan)

/-- Stable insertion of an element: it goes in front of the first element it
compares strictly less than. -/
def insertByNumber (x : RawDef) : List RawDef → List RawDef
  | [] => [x]
  | y :: ys => if numberLt x y then x :: y :: ys else y :: insertByNumber x ys

/-- The stable sort items.slice().sort by the numeric comparator. With the
consistent comparators that arise here this agrees with the JavaScript stable
sort; an inconsistent comparator (NaN results) is implementation-defined in
JavaScript and never reached from parser output. -/
def jsSortByNumber (l : List RawDef) : List RawDef :=
  l.foldl (fun acc x => insertByNumber x acc) []

/-- The element construction for BitString and Enumerated items: alias and
name plus the position or constant entry. -/
def normSimpleElems (numKey : String) :
    List RawDef → Except String (List JSVal)
  | [] => .ok []
  | item :: rest =>
      match normalizeItem item none with
      | .error e => .error e
      | .ok element =>
          match normSimpleElems numKey rest with
          | .error e => .error e
          | .ok elems =>
              .ok (.obj (element ++ [(numKey, numberVal item.core.number)]) :: elems)

/-- The tail of normalizeDefinition: with traits present the type becomes the
structured object with the base tag, otherwise the bare converted type name,
which at nested levels is returned alone. -/
def withTraits (result : List (String × JSVal)) (rtype : String) (level : ℕ) :
    Option (List (String × JSVal)) → Except String JSVal
  | some tr =>
      .ok (.obj (result ++ [("type", .obj (("base", .str rtype) :: tr))]))
  | none =>
      if level ≠ 0 then .ok (.str rtype)
      else .ok (.obj (result ++ [("type", .str rtype)]))

mutual

/-- The normalizeDefinition function of src/index.js. Returns an error value
exactly where the source throws; level greater than zero marks the recursive
calls on nested items. -/
def normalizeDefinition : RawDef → ℕ → Except String JSVal
  | .mk core items?, level =>
    let d := RawDef.mk core items?
    match normalizeItem d (if level ≠ 0 then none else some "") with
    | .error e => .error e
    | .ok result =>
        match core.type with
        | none => .error "Definition must have a type."
        | some ty =>
            if ty = "" then .error "Definition must have a type."
            else
              let rtype := toBaclibName ty (some "")
              let traits0 := switchTraits ty core
              let traits1 :=
                match core.series with
                | some s =>
                    if s.truthy then some (("series", s.toVal) :: traits0.getD [])
                    else traits0
                | none => traits0
              match items? with
              | none => withTraits result rtype level traits1
              | some itemsList =>
                if itemsList.isEmpty then withTraits result rtype level traits1
                else
                  let itemsKey := (itemsNameOf ty).getD "undefined"
                  match itemsNumberOf ty with
                  | some numKey =>
                      match normSimpleElems numKey (jsSortByNumber itemsList) with
                      | .error e => .error e
                      | .ok elems =>
                          withTraits result rtype level
                            (some (enhanceKnownTypes d [(itemsKey, .arr elems)]))
                  | none =>
                      match normComplexItems ty level itemsList with
                      | .error e => .error e
                      | .ok elems =>
                          withTraits result rtype level
                            (some (enhanceKnownTypes d [(itemsKey, .arr elems)]))

/-- The element construction for CHOICE and SEQUENCE items (and any other
kind carrying items): alias and name, the recursively normalized type, the
context tag when the raw tag number is a nonnegative integer, and the
optional flag for sequence fields. -/
def normComplexItems (enclTy : String) (level : ℕ) :
    List RawDef → Except String (List JSVal)
  | [] => .ok []
  | item :: rest =>
      match normalizeItem item none with
      | .error e => .error e
      | .ok element =>
          match normalizeDefinition item (level + 1) with
          | .error e => .error e
          | .ok t =>
              let element := element ++ [("type", t)]
              let element :=
                if isNonnegInt item.core.number then
                  element ++ [("context", numberVal item.core.number)]
                else element
              let element :=
                if enclTy = "SEQUENCE" && item.core.optional then
                  element ++ [("optional", .boolv true)]
                else element
              match normComplexItems enclTy level rest with
              | .error e => .error e
              | .ok elems => .ok (.obj element :: elems)

end

/-- The normalize entry point of src/index.js: the predefined-type registry,
keyed by name, wins when it holds a (truthy) record; otherwise the definition
is normalized freshly. The registry is the external collaborator, modelled as
an abstract lookup. -/
def normalize (registry : String → Option JSVal) (d : RawDef) :
    Except String JSVal :=
  match d.core.name.bind registry with
  | some v => if v.truthy then .ok v else normalizeDefinition d 0
  | none => normalizeDefinition d 0

/-! ## Structural validity of raw definitions

Parse only ever produces definitions whose name is a string, whose type is a
nonempty string, and whose items each carry a name, with nested type shapes
on the items of the structured kinds. This is the shape the normalizer is
specified to be total on. -/

mutual

/-- Structural validity of one raw definition: name present, type a nonempty
string, and items valid for the way the normalizer consumes them (names only
for the two simple kinds, recursive validity everywhere else, because every
other kind normalizes its items recursively). -/
def wfRaw : RawDef → Bool
  | .mk core items? =>
      core.name.isSome &&
      (match core.type with
       | some ty => !(ty = "")
       | none => false) &&
      (match items? with
       | none => true
       | some l =>
           if core.type = some "BitString" || core.type = some "Enumerated" then
             l.all (fun i => i.core.name.isSome)
           else wfAll l)

/-- Structural validity of a list of raw items. -/
def wfAll : List RawDef → Bool
  | [] => true
  | d :: rest => wfRaw d && wfAll rest

end

/-- Extracts a trait of the structured type object from a normalization
result: the value stored under the given key inside the object sitting in the
type property. -/
def typeTrait (res : Except String JSVal) (k : String) : Option JSVal :=
  match res with
  | .ok (.obj fs) =>
      match lookupField fs "type" with
      | some (.obj tr) => lookupField tr k
      | _ => none
  | _ => none

/-- Extracts the full key list of the structured type object from a
normalization result. -/
def typeKeys (res : Except String JSVal) : Option (List String) :=
  match res with
  | .ok (.obj fs) =>
      match lookupField fs "type" with
      | some (.obj tr) => some (objKeys tr)
      | _ => none
  | _ => none

/-- Extracts the context property of one normalized option or field. -/
def elementContext (v : JSVal) : Option JSVal :=
  match v with
  | .obj fs => lookupField fs "context"
  | _ => none

/-! ## Parser embedding: src/index.js lines 93-394

Text is a list of characters; the scan state keeps the full normalized
content (for offset computation), the remaining suffix, and the last skipped
comment. Each source regex is compiled to a deterministic matcher on the
remaining text returning the value and the rest; the regexes all have first
character classes disjoint from what may follow, so greedy scanning without
backtracking is exact. -/

/-- Printable ASCII, the class written as x20-x7E in the validation regex. -/
def printableA (c : Char) : Bool := ' ' ≤ c && c ≤ '~'

/-- A byte the validation accepts: tab, newline or printable ASCII. -/
def validChar (c : Char) : Bool := c = '\t' || c = '\n' || printableA c

/-- Line-ending normalization replacing CRLF or lone CR by LF. -/
def normalizeNewlines : List Char → List Char
  | '\r' :: '\n' :: rest => '\n' :: normalizeNewlines rest
  | '\r' :: rest => '\n' :: normalizeNewlines rest
  | c :: rest => c :: normalizeNewlines rest
  | [] => []

/-- Index of the first invalid character, when one exists. -/
def findBadIdx : List Char → Option ℕ
  | [] => none
  | c :: rest =>
      if !validChar c then some 0 else (findBadIdx rest).map (· + 1)

/-- Letters and digits, the class written 0-9A-Za-z in the identifier
regexes. -/
def isAlnumA (c : Char) : Bool := isDigitA c || isLowerA c || isUpperA c

/-- Lowercase letters and digits, the class of nested item names. -/
def isLowDigA (c : Char) : Bool := isDigitA c || isLowerA c

/-- The scan state: full normalized content, remaining suffix, and the text
of the last skipped comment run. The current offset is derived as the length
difference, exactly as the source recomputes it after every skip. -/
structure PState where
  content : List Char
  text : List Char
  lastComment : String

/-- The current absolute offset. -/
def idx (s : PState) : ℕ := s.content.length - s.text.length

/-- The maximal prefix matched by one whitespace-or-comment run: a sequence
of whitespace characters and comment tokens running from a double dash to the
end of the line. Returns the matched prefix and the rest. -/
def skipPrefixA : Bool → List Char → List Char × List Char
  | true, [] => ([], [])
  | true, c :: rest =>
      if c = '\n' then
        let (p, r) := skipPrefixA false rest
        ('\n' :: p, r)
      else
        let (p, r) := skipPrefixA true rest
        (c :: p, r)
  | false, [] => ([], [])
  | false, '-' :: '-' :: rest2 =>
      let (p, r) := skipPrefixA true rest2
      ('-' :: '-' :: p, r)
  | false, c :: rest =>
      if jsSpace c then
        let (p, r) := skipPrefixA false rest
        (c :: p, r)
      else ([], c :: rest)

/-- The maximal prefix matched by one whitespace-or-comment run: whitespace
characters and comment tokens running from a double dash to just before the
end of the line (the terminating newline is itself consumed as whitespace,
exactly as the regex alternation does). -/
def skipPrefix (l : List Char) : List Char × List Char :=
  skipPrefixA false l

/-- Global deletion of every double dash, left to right. -/
def removeDoubleDash : List Char → List Char
  | '-' :: '-' :: rest => removeDoubleDash rest
  | c :: rest => c :: removeDoubleDash rest
  | [] => []

/-- Global replacement collapsing runs of tabs and spaces (newlines
excluded) into one space. -/
def collapseTabSpace (l : List Char) : List Char :=
  collapseRuns (fun c => c = '\t' || c = ' ') false l

/-- Whitespace trimming from both ends. -/
def trimWs (l : List Char) : List Char :=
  ((l.dropWhile jsSpace).reverse.dropWhile jsSpace).reverse

/-- The skipWhitespaceAndComments helper: consumes the maximal
whitespace-and-comment prefix, records the processed comment text (double
dashes removed, tab and space runs collapsed, ends trimmed; empty when
nothing was skipped), and reports whether text remains. -/
def skipWC (s : PState) : PState × Bool :=
  let (p, r) := skipPrefix s.text
  let cm :=
    if p.isEmpty then ""
    else String.mk (trimWs (collapseTabSpace (removeDoubleDash p)))
  ({ s with text := r, lastComment := cm }, !r.isEmpty)

/-! ### Matchers for the individual source regexes -/

/-- The identifier continuation after the leading uppercase letter:
alphanumeric characters and dash-then-uppercase segment boundaries, consumed
greedily. A character-at-a-time scan of the continuation regex. -/
def identScan : List Char → List Char × List Char
  | '-' :: c2 :: rest2 =>
      if isUpperA c2 then
        let (p, r) := identScan rest2
        ('-' :: c2 :: p, r)
      else ([], '-' :: c2 :: rest2)
  | c :: rest =>
      if isAlnumA c then
        let (p, r) := identScan rest
        (c :: p, r)
      else ([], c :: rest)
  | [] => ([], [])

/-- An uppercase-led identifier with optional dash-separated uppercase-led
segments, the type-reference regex. -/
def upperIdentM (cs : List Char) : Option (String × List Char) :=
  match cs with
  | c :: rest =>
      if isUpperA c then
        let (p, r) := identScan rest
        some (String.mk (c :: p), r)
      else none
  | [] => none

/-- The definition-header regex: an uppercase-led identifier, optional
whitespace, and the definition marker. The captured group is the
identifier. -/
def defNameM (cs : List Char) : Option (String × List Char) := do
  let (nm, r) ← upperIdentM cs
  let r := r.dropWhile jsSpace
  let r ← chompLit "::=".toList r
  pure (nm, r)

/-- At least one whitespace character followed by any further run. -/
def wsPlus : List Char → Option (List Char)
  | c :: rest => if jsSpace c then some (rest.dropWhile jsSpace) else none
  | [] => none

/-- The application-tag regex with the captured tag number. -/
def appTagM (cs : List Char) : Option (ℕ × List Char) := do
  let cs ← chompLit "[".toList cs
  let cs := cs.dropWhile jsSpace
  let cs ← chompLit "APPLICATION".toList cs
  let cs ← wsPlus cs
  let (n, cs) ← chompDigits cs
  let cs := cs.dropWhile jsSpace
  let cs ← chompLit "]".toList cs
  pure (n, cs)

/-- The optional SIZE group of the sequence-of regex, with the captured
count. -/
def seqSizeGroup (cs : List Char) : Option (ℕ × List Char) := do
  let c1 ← chompLit "SIZE".toList cs
  let c1 := c1.dropWhile jsSpace
  let c1 ← chompLit "(".toList c1
  let c1 := c1.dropWhile jsSpace
  let (n, c1) ← chompDigits c1
  let c1 := c1.dropWhile jsSpace
  let c1 ← chompLit ")".toList c1
  pure (n, c1.dropWhile jsSpace)

/-- The sequence-of regex: SEQUENCE, an optional SIZE group with a captured
count, and OF. Returns the captured count when the group matched. -/
def seqOfM (cs : List Char) : Option (Option ℕ × List Char) := do
  let cs ← chompLit "SEQUENCE".toList cs
  let cs := cs.dropWhile jsSpace
  match seqSizeGroup cs with
  | some (n, c1) => (chompLit "OF".toList c1).map (fun r => (some n, r))
  | none => (chompLit "OF".toList cs).map (fun r => ((none : Option ℕ), r))

/-- The two-word built-in type regexes: the first word, at least one
whitespace character, the second word. -/
def twoWordM (w1 w2 : String) (cs : List Char) : Option (Unit × List Char) := do
  let cs ← chompLit w1.toList cs
  let cs ← wsPlus cs
  let cs ← chompLit w2.toList cs
  pure ((), cs)

/-- A literal string matcher, the string-pattern form of tryMatch. -/
def litM (w : String) (cs : List Char) : Option (Unit × List Char) :=
  (chompLit w.toList cs).map (fun r => ((), r))

/-- The size-keyword regex: an optional opening parenthesis, whitespace, and
SIZE. Returns whether the parenthesis was part of the match. -/
def sizeKwM (cs : List Char) : Option (Bool × List Char) :=
  match chompLit "(".toList cs with
  | some r1 =>
      (chompLit "SIZE".toList (r1.dropWhile jsSpace)).map (fun r => (true, r))
  | none =>
      (chompLit "SIZE".toList (cs.dropWhile jsSpace)).map (fun r => (false, r))

/-- The optional fraction behind the integer part of a numeric literal: a
dot followed by at least one digit extends the magnitude to the exact
rational value, anything else leaves the integer part. -/
def numFrac (ip : ℕ) : List Char → ℚ × List Char
  | '.' :: cs3 =>
      let fd := cs3.takeWhile isDigitA
      if fd = [] then ((ip : ℚ), '.' :: cs3)
      else
        (mkRat (ip * 10 ^ fd.length +
            fd.foldl (fun n c => 10 * n + (c.toNat - '0'.toNat)) 0)
           (10 ^ fd.length),
         cs3.dropWhile isDigitA)
  | cs2 => ((ip : ℚ), cs2)

/-- The unsigned part of a numeric literal: the mandatory digit run and the
optional fraction, negated under a preceding minus sign. -/
def numLitCore (neg : Bool) (cs1 : List Char) : Option (ℚ × List Char) :=
  match chompDigits cs1 with
  | none => none
  | some (ip, cs2) =>
      let (mag, rest) := numFrac ip cs2
      some ((if neg then -mag else mag), rest)

/-- A signed decimal literal with optional fraction, resolved by parseFloat
to an exact rational. -/
def numLitM (cs : List Char) : Option (ℚ × List Char) :=
  match cs with
  | '+' :: rest => numLitCore false rest
  | '-' :: rest => numLitCore true rest
  | rest => numLitCore false rest

/-- The low bound of a range constraint: the MIN keyword resolving to
negative infinity, or a numeric literal. -/
def lowBoundM (cs : List Char) : Option (JSNum × List Char) :=
  match chompLit "MIN".toList cs with
  | some r => some (.ninf, r)
  | none => (numLitM cs).map (fun (q, r) => (JSNum.num q, r))

/-- The high bound of a range constraint: the MAX keyword resolving to
positive infinity, or a numeric literal. -/
def highBoundM (cs : List Char) : Option (JSNum × List Char) :=
  match chompLit "MAX".toList cs with
  | some r => some (.pinf, r)
  | none => (numLitM cs).map (fun (q, r) => (JSNum.num q, r))

/-- The optional dotted high bound of the range-constraint regex. -/
def rangeHigh (cs : List Char) : Option (JSNum × List Char) := do
  let c1 ← chompLit "..".toList cs
  let c1 := c1.dropWhile jsSpace
  let (hi, c1) ← highBoundM c1
  pure (hi, c1.dropWhile jsSpace)

/-- The range-constraint regex: a parenthesized low bound with an optional
dotted high bound. Returns the resolved bounds. -/
def rangeM (cs : List Char) : Option ((JSNum × Option JSNum) × List Char) := do
  let cs ← chompLit "(".toList cs
  let cs := cs.dropWhile jsSpace
  let (lo, cs) ← lowBoundM cs
  let cs := cs.dropWhile jsSpace
  match rangeHigh cs with
  | some (hi, c1) =>
      (chompLit ")".toList c1).map (fun r => ((lo, some hi), r))
  | none =>
      (chompLit ")".toList cs).map (fun r => ((lo, (none : Option JSNum)), r))

/-- The parenthesized item-number regex of the simple kinds. -/
def simpleNumM (cs : List Char) : Option (ℕ × List Char) := do
  let cs ← chompLit "(".toList cs
  let cs := cs.dropWhile jsSpace
  let (n, cs) ← chompDigits cs
  let cs := cs.dropWhile jsSpace
  let cs ← chompLit ")".toList cs
  pure (n, cs)

/-- The bracketed context-tag regex of the complex kinds, with no interior
whitespace. -/
def ctxTagM (cs : List Char) : Option (ℕ × List Char) := do
  let cs ← chompLit "[".toList cs
  let (n, cs) ← chompDigits cs
  let cs ← chompLit "]".toList cs
  pure (n, cs)

/-- The item-name continuation after the leading lowercase letter:
lowercase-or-digit characters and dash-then-lowercase-or-digit segment
boundaries, consumed greedily. -/
def lowScan : List Char → List Char × List Char
  | '-' :: c2 :: rest2 =>
      if isLowDigA c2 then
        let (p, r) := lowScan rest2
        ('-' :: c2 :: p, r)
      else ([], '-' :: c2 :: rest2)
  | c :: rest =>
      if isLowDigA c then
        let (p, r) := lowScan rest
        (c :: p, r)
      else ([], c :: rest)
  | [] => ([], [])

/-- The item-name regex: a lowercase letter, lowercase-or-digit continuation,
and dash-separated segments. -/
def itemNameM (cs : List Char) : Option (String × List Char) :=
  match cs with
  | c :: rest =>
      if isLowerA c then
        let (p, r) := lowScan rest
        some (String.mk (c :: p), r)
      else none
  | [] => none

/-! ### The parser proper -/

/-- A structured parse failure: message and absolute character offset in the
normalized content (the source derives the reported line from this offset). -/
structure PError where
  message : String
  index : ℕ
deriving Repr, DecidableEq

/-- The 1-indexed line of an offset, counting newlines in the content up to
the offset, as the error constructor computes it. -/
def lineOf (content : List Char) (i : ℕ) : ℕ :=
  1 + ((content.take i).filter (fun c => c = '\n')).length

/-- A parser outcome: success, a structured failure, or exhaustion of the
recursion fuel. The termination theorem shows the last outcome never occurs
once the fuel exceeds the text length. -/
inductive PResult (α : Type) where
  | ok (a : α)
  | err (e : PError)
  | fuelOut

/-- The tryMatch primitive: attempts a matcher at the current position; on
success consumes the match and skips following whitespace and comments, on
failure leaves the state untouched. -/
def tryM {α : Type} (m : List Char → Option (α × List Char)) (s : PState) :
    Option (α × PState) :=
  match m s.text with
  | none => none
  | some (a, rest) => some (a, (skipWC { s with text := rest }).1)

/-- The generic message of a failed mandatory match; the source interpolates
the pattern text, which the claims never depend on. -/
def expectMsg : String := "Expected pattern not found"

/-- The message of the semantic range error; the source interpolates the two
bounds. -/
def rangeMsg : String := "Invalid range: minimum is greater than maximum"

/-- The message of the structural error for an item list on a kind that
cannot hold one; the source interpolates the kind tag. -/
def itemsMsg : String := "Type cannot have items"

/-- The message of the encoding error for a disallowed byte. -/
def invalidMsg : String := "Invalid characters in content"

/-- The requireMatch primitive: like tryMatch but failing with a structured
error carrying the pre-match offset. -/
def reqM {α : Type} (m : List Char → Option (α × List Char)) (s : PState) :
    Except PError (α × PState) :=
  match tryM m s with
  | none => .error ⟨expectMsg, idx s⟩
  | some r => .ok r

/-- The parseRangeConstraint function: matches the range pattern (mandatory
for a size constraint, optional for a value range), resolves a missing high
bound to the low bound, raises the semantic range error at the post-match
offset when the minimum exceeds the maximum, and stores the constraint in the
size or range field. -/
def parseRangeConstraint (isSize : Bool) (core : RawCore) (s : PState) :
    Except PError (RawCore × PState) :=
  match tryM rangeM s, isSize with
  | none, true => .error ⟨expectMsg, idx s⟩
  | none, false => .ok (core, s)
  | some ((lo, hi?), s'), _ =>
      let minValue := lo
      let maxValue := hi?.getD minValue
      if minValue.jsGt maxValue then .error ⟨rangeMsg, idx s'⟩
      else
        .ok ((if isSize then { core with size := some ⟨minValue, maxValue⟩ }
              else { core with range := some ⟨minValue, maxValue⟩ }), s')

/-- The base-type alternatives of parseType, in source order: the any marker,
ENUMERATED, BIT STRING, OCTET STRING, and otherwise a mandatory
type-reference identifier. -/
def parseBaseType (s : PState) : Except PError (String × PState) :=
  match tryM (litM "ABSTRACT-SYNTAX.&Type") s with
  | some (_, s') => .ok ("Any", s')
  | none =>
  match tryM (litM "ENUMERATED") s with
  | some (_, s') => .ok ("Enumerated", s')
  | none =>
  match tryM (twoWordM "BIT" "STRING") s with
  | some (_, s') => .ok ("BitString", s')
  | none =>
  match tryM (twoWordM "OCTET" "STRING") s with
  | some (_, s') => .ok ("OctetString", s')
  | none =>
      match reqM upperIdentM s with
      | .error e => .error e
      | .ok (nm, s') => .ok (nm, s')

/-- The size-constraint section of parseType: when the size keyword matches,
the range pattern is mandatory and a closing parenthesis is required exactly
when the keyword match began with an opening one. -/
def parseSizeSection (core : RawCore) (s : PState) :
    Except PError (RawCore × PState) :=
  match tryM sizeKwM s with
  | none => .ok (core, s)
  | some (paren, s₁) =>
      match parseRangeConstraint true core s₁ with
      | .error e => .error e
      | .ok (core', s₂) =>
          if paren then
            match reqM (litM ")") s₂ with
            | .error e => .error e
            | .ok (_, s₃) => .ok (core', s₃)
          else .ok (core', s₂)

/-- The separator decision after one parsed item: stop without a comma,
continue after a comma, or consume the extensibility marker after a comma
when the enclosing kind allows one. -/
inductive SepStep where
  | stop
  | more
  | dots

/-- Matches the separator after an item: a comma, then, unless the enclosing
kind is the ordered-field sequence, an optional extensibility marker ending
the list. -/
def sepStep (enclTy : String) (s : PState) : SepStep × PState :=
  match tryM (litM ",") s with
  | none => (.stop, s)
  | some (_, s₁) =>
      if enclTy ≠ "SEQUENCE" then
        match tryM (litM "...") s₁ with
        | some (_, s₂) => (.dots, s₂)
        | none => (.more, s₁)
      else (.more, s₁)

/-- The comment attached to an item or definition: the last skipped comment
when nonempty. -/
def commentOf (s : PState) : Option String :=
  if s.lastComment = "" then none else some s.lastComment

/-- The call tags of the parser functions: parseType, parseItems, the item
loop, the loop tail after one item, parseDefinition, and the top-level loop.
The mutually recursive source functions become one function recursing
structurally on fuel, so that concrete runs compute by kernel reduction. -/
inductive PCall where
  | ptype (core : RawCore)
  | pitems (core : RawCore)
  | iloop (isSimple : Bool) (enclTy : String)
  | itail (isSimple : Bool) (enclTy : String) (item : RawDef)
  | pdef
  | ptop

/-- The return value of each parser call. -/
def RetTy : PCall → Type
  | .ptype _ => RawCore × Option (List RawDef)
  | .pitems _ => RawCore × Option (List RawDef)
  | .iloop _ _ => List RawDef × Bool
  | .itail _ _ _ => List RawDef × Bool
  | .pdef => RawDef
  | .ptop => List RawDef

/-- One fused definition of the parser functions: parseType (optional
sequence-of marker, base type, size section, value range, item list),
parseItems (brace-guarded item list with the structural error for kinds that
cannot hold items), the item loop and its per-item tail, parseDefinition
(header, application tag, type expression), and the top-level definition
loop. Fuel decreases on every internal call; the loops consume at least one
character per iteration, which the termination theorem turns into a bound on
the fuel needed. -/
def step : (fuel : ℕ) → (c : PCall) → PState → PResult (RetTy c × PState)
  | 0, _, _ => .fuelOut
  | f + 1, .ptype core, s =>
      let (core₁, s₁) :=
        match tryM seqOfM s with
        | none => (core, s)
        | some (szOpt, s') =>
            ({ core with series := some (match szOpt with
                | some n => Series.count n
                | none => Series.unbounded) }, s')
      match parseBaseType s₁ with
      | .error e => .err e
      | .ok (ty, s₂) =>
          let core₂ := { core₁ with type := some ty }
          match parseSizeSection core₂ s₂ with
          | .error e => .err e
          | .ok (core₃, s₃) =>
              match parseRangeConstraint false core₃ s₃ with
              | .error e => .err e
              | .ok (core₄, s₄) => step f (.pitems core₄) s₄
  | f + 1, .pitems core, s =>
      match tryM (litM "\x7b") s with
      | none => .ok ((core, none), s)
      | some (_, s₁) =>
          let ty := core.type.getD ""
          let isSimple := ty = "BitString" || ty = "Enumerated"
          let isComplex := ty = "CHOICE" || ty = "SEQUENCE"
          if !isSimple && !isComplex then .err ⟨itemsMsg, idx s₁⟩
          else
            match step f (.iloop isSimple ty) s₁ with
            | .err e => .err e
            | .fuelOut => .fuelOut
            | .ok ((items, ext), s₂) =>
                match reqM (litM "\x7d") s₂ with
                | .error e => .err e
                | .ok (_, s₃) =>
                    let core' := { core with
                      extensible := core.extensible || ext,
                      comment :=
                        match commentOf s₃ with
                        | some c => some c
                        | none => core.comment }
                    .ok ((core', some items), s₃)
  | f + 1, .iloop isSimple enclTy, s =>
      let (s₁, more) := skipWC s
      if !more then .ok (([], false), s₁)
      else
        match reqM itemNameM s₁ with
        | .error e => .err e
        | .ok (nm, s₂) =>
            if isSimple then
              match reqM simpleNumM s₂ with
              | .error e => .err e
              | .ok (n, s₃) =>
                  let item := RawDef.mk
                    { name := some nm, number := some (.num n),
                      comment := commentOf s₃ } none
                  step f (.itail isSimple enclTy item) s₃
            else
              let (tag?, s₃) :=
                match tryM ctxTagM s₂ with
                | none => ((none : Option ℕ), s₂)
                | some (n, s') => (some n, s')
              let icore : RawCore :=
                { name := some nm, number := tag?.map (fun n => JSNum.num n) }
              match step f (.ptype icore) s₃ with
              | .err e => .err e
              | .fuelOut => .fuelOut
              | .ok ((icore', iitems), s₄) =>
                  let (icore'', s₅) :=
                    match tryM (litM "OPTIONAL") s₄ with
                    | none => (icore', s₄)
                    | some (_, s') => ({ icore' with optional := true }, s')
                  let icore''' := { icore'' with comment := commentOf s₅ }
                  step f (.itail isSimple enclTy (RawDef.mk icore''' iitems)) s₅
  | f + 1, .itail isSimple enclTy item, s =>
      match sepStep enclTy s with
      | (.stop, s') => .ok (([item], false), s')
      | (.dots, s') => .ok (([item], true), s')
      | (.more, s') =>
          match step f (.iloop isSimple enclTy) s' with
          | .err e => .err e
          | .fuelOut => .fuelOut
          | .ok ((items, ext), s'') => .ok ((item :: items, ext), s'')
  | f + 1, .pdef, s =>
      match reqM defNameM s with
      | .error e => .err e
      | .ok (nm, s₁) =>
          let (core₀, s₂) :=
            match tryM appTagM s₁ with
            | none => (({ name := some nm } : RawCore), s₁)
            | some (n, s') =>
                (({ name := some nm, primitive := some (n : ℤ) } : RawCore), s')
          match step f (.ptype core₀) s₂ with
          | .err e => .err e
          | .fuelOut => .fuelOut
          | .ok ((core', items?), s₃) => .ok (RawDef.mk core' items?, s₃)
  | f + 1, .ptop, s =>
      let (s₁, more) := skipWC s
      if !more then .ok ([], s₁)
      else
        match step f .pdef s₁ with
        | .err e => .err e
        | .fuelOut => .fuelOut
        | .ok (d, s₂) =>
            match step f .ptop s₂ with
            | .err e => .err e
            | .fuelOut => .fuelOut
            | .ok (ds, s₃) => .ok (d :: ds, s₃)

/-- The parseType function of the source, as a call into the fused parser. -/
def parseTypeF (fuel : ℕ) (core : RawCore) (s : PState) :
    PResult (RawCore × Option (List RawDef) × PState) :=
  match step fuel (.ptype core) s with
  | .err e => .err e
  | .fuelOut => .fuelOut
  | .ok ((c, i), s') => .ok (c, i, s')

/-- The parseItems function of the source, as a call into the fused parser. -/
def parseItemsF (fuel : ℕ) (core : RawCore) (s : PState) :
    PResult (RawCore × Option (List RawDef) × PState) :=
  match step fuel (.pitems core) s with
  | .err e => .err e
  | .fuelOut => .fuelOut
  | .ok ((c, i), s') => .ok (c, i, s')

/-- The parseDefinition function of the source, as a call into the fused
parser. -/
def parseDefinitionF (fuel : ℕ) (s : PState) : PResult (RawDef × PState) :=
  step fuel .pdef s

/-- The top-level definition loop of the source, as a call into the fused
parser. -/
def topLoopF (fuel : ℕ) (s : PState) : PResult (List RawDef × PState) :=
  step fuel .ptop s

/-- The parse entry point on an already-string input: normalizes line
endings, rejects the first disallowed byte before any grammar parsing, then
runs the definition loop. The fuel budget of six steps per character plus the
call depth is shown sufficient by the termination theorem. -/
def parseRun (input : String) : PResult (List RawDef) :=
  let content := normalizeNewlines input.toList
  match findBadIdx content with
  | some i => .err ⟨invalidMsg, i⟩
  | none =>
      match topLoopF (6 * content.length + 6) ⟨content, content, ""⟩ with
      | .err e => .err e
      | .fuelOut => .fuelOut
      | .ok (ds, _) => .ok ds

/-- The call depth of each parser call below the top-level loop, used as the
uniform fuel margin beyond six steps per remaining character. -/
def rank : PCall → ℕ
  | .itail _ _ _ => 1
  | .iloop _ _ => 2
  | .pitems _ => 3
  | .ptype _ => 4
  | .pdef => 5
  | .ptop => 6

/-- Guaranteed consumption of a successful call: parseDefinition always
consumes at least one character of the remaining text; the other calls may
consume nothing. -/
def consumed : PCall → ℕ
  | .pdef => 1
  | .ptype _ => 0
  | .pitems _ => 0
  | .iloop _ _ => 0
  | .itail _ _ _ => 0
  | .ptop => 0

/-! ## Further derived notions and concrete instances used by the claims -/

/-- The field list normalizeItem returns on a present name. -/
def itemFields (aliasName : String) (pfx : Option String) :
    List (String × JSVal) :=
  let nm := toBaclibName aliasName pfx
  if aliasName = nm then [("name", .str nm)]
  else [("alias", .str aliasName), ("name", .str nm)]

/-- The five well-known names special-cased by enhanceKnownTypes. -/
def specialNames : List String :=
  ["BACnetEngineeringUnits", "BACnetPropertyIdentifier",
   "BACnetAuditOperationFlags", "BACnetObjectTypesSupported",
   "BACnetServicesSupported"]

/-- The kind tags with a dedicated normalization: the four numeric kinds, the
two string kinds, the two simple enumerable kinds, and the two structured
kinds. Every other tag is a plain type reference. -/
def normalKinds : List String :=
  ["Unsigned", "Integer", "Real", "Double", "OctetString", "CharacterString",
   "BitString", "Enumerated", "CHOICE", "SEQUENCE"]

/-- Extracts the j-th element of an array trait of the structured type
object of a normalization result. -/
def typeTraitElem (res : Except String JSVal) (k : String) (j : ℕ) :
    Option JSVal :=
  match typeTrait res k with
  | some (.arr xs) => xs.get? j
  | _ => none

/-- A source text declaring a sequence whose second field carries the
context-tag number 255, one past the top of the claimed valid range. -/
def c1input : String :=
  "C-One ::= SEQUENCE \x7b a [0] Unsigned OPTIONAL, b [255] Integer \x7d"

/-- The raw definition parse produces for that text. -/
def c1raw : RawDef :=
  .mk { name := some "C-One", type := some "SEQUENCE" }
    (some [.mk { name := some "a", type := some "Unsigned",
                 number := some (.num 0), optional := true } none,
           .mk { name := some "b", type := some "Integer",
                 number := some (.num 255) } none])

/-- A generic enumeration without a special-case name: two constants given
out of order, not extensible. -/
def c2raw : RawDef :=
  .mk { name := some "C2State", type := some "Enumerated" }
    (some [.mk { name := some "on", number := some (.num 1) } none,
           .mk { name := some "off", number := some (.num 0) } none])

/-- A definition that merely references another type. -/
def c3raw : RawDef :=
  .mk { name := some "Foo", type := some "Bar-Baz" } none

/-- A source text whose single range constraint has its low bound above its
high bound; the constraint begins at offset 17 and ends at offset 23. -/
def c4input : String := "Baz ::= Unsigned (5..3)"

/-- A registry holding one normalized record under one original name. -/
def c5reg : String → Option JSVal := fun s =>
  if s = "BACnetDateTime" then some (.obj [("name", .str "date-time")])
  else none

/-- A raw definition whose name hits that registry entry. -/
def c5raw : RawDef :=
  .mk { name := some "BACnetDateTime", type := some "SEQUENCE" } none

/-- A raw definition whose name misses that registry. -/
def c5missRaw : RawDef :=
  .mk { name := some "Elsewhere", type := some "Unsigned" } none

/-- A structurally valid nested raw definition: a sequence holding a choice
holding a type reference. -/
def c6raw : RawDef :=
  .mk { name := some "CSix", type := some "SEQUENCE" }
    (some [.mk { name := some "x", type := some "CHOICE",
                 number := some (.num 1) }
      (some [.mk { name := some "y", type := some "Unsigned" } none])])

/-- A source text containing one byte outside the allowed set, at offset
one. -/
def c9input : String := "AÄB ::= Unsigned"

/-- A constraint-free raw definition referencing another type. -/
def c10raw : RawDef :=
  .mk { name := some "CTen", type := some "Whatever-Ref" } none

/-! ## Helper lemmas -/

/-- normalizeItem on a present name yields exactly the alias-name field
list. -/
theorem normalizeItem_eq (d : RawDef) (a : String) (pfx : Option String)
    (h : d.core.name = some a) :
    normalizeItem d pfx = .ok (itemFields a pfx) := by
  simp [normalizeItem, h, itemFields]

/-- The alias-name field list holds no other key. -/
theorem lookupField_itemFields (a : String) (pfx : Option String) (k : String)
    (h1 : k ≠ "alias") (h2 : k ≠ "name") :
    lookupField (itemFields a pfx) k = none := by
  simp only [itemFields]
  split <;> simp [lookupField, Ne.symm h1, Ne.symm h2]

/-- Key lookup distributes over list append. -/
theorem lookupField_append (xs ys : List (String × JSVal)) (k : String) :
    lookupField (xs ++ ys) k =
      match lookupField xs k with
      | some v => some v
      | none => lookupField ys k := by
  induction xs with
  | nil => simp [lookupField]
  | cons p rest ih =>
      obtain ⟨k', v⟩ := p
      simp only [List.cons_append, lookupField]
      split <;> simp [ih]

/-- Setting one key leaves every other key unchanged. -/
theorem lookupField_objSet_ne (fs : List (String × JSVal)) (k k' : String)
    (v : JSVal) (h : k' ≠ k) :
    lookupField (objSet fs k v) k' = lookupField fs k' := by
  induction fs with
  | nil => simp [objSet, lookupField, Ne.symm h]
  | cons p rest ih =>
      obtain ⟨k₀, v₀⟩ := p
      simp only [objSet]
      by_cases hk : k₀ = k
      · subst hk
        simp [lookupField, Ne.symm h]
      · simp only [if_neg hk, lookupField]
        split <;> simp [ih]

/-- The key list of a cons. -/
theorem objKeys_cons (k₀ : String) (v₀ : JSVal) (rest : List (String × JSVal)) :
    objKeys ((k₀, v₀) :: rest) = k₀ :: objKeys rest := rfl

/-- Setting one key leaves the key list unchanged when the key was already
present, and appends it otherwise. -/
theorem objKeys_objSet (fs : List (String × JSVal)) (k : String) (v : JSVal) :
    objKeys (objSet fs k v) =
      if k ∈ objKeys fs then objKeys fs else objKeys fs ++ [k] := by
  induction fs with
  | nil => simp [objSet, objKeys]
  | cons p rest ih =>
      obtain ⟨k₀, v₀⟩ := p
      by_cases hk : k₀ = k
      · subst hk
        simp [objSet, objKeys, List.mem_cons]
      · have hL : objKeys (objSet ((k₀, v₀) :: rest) k v) =
            k₀ :: objKeys (objSet rest k v) := by
          simp [objSet, if_neg hk, objKeys]
        rw [hL, ih, objKeys_cons]
        have hcd : (k ∈ k₀ :: objKeys rest) ↔ (k ∈ objKeys rest) := by
          constructor
          · intro hx
            rcases List.mem_cons.mp hx with h | h
            · exact absurd h.symm hk
            · exact h
          · exact List.mem_cons_of_mem _
        by_cases hmem : k ∈ objKeys rest
        · rw [if_pos hmem, if_pos (hcd.mpr hmem)]
        · rw [if_neg hmem, if_neg (fun hx => hmem (hcd.mp hx))]
          simp

/-- The switch traits vanish whenever both constraints are absent. -/
theorem switchTraits_none (ty : String) (core : RawCore)
    (hr : core.range = none) (hs : core.size = none) :
    switchTraits ty core = none := by
  unfold switchTraits
  split_ifs <;> simp [hr, hs]

/-- The switch traits vanish for every kind outside the recognized ten. -/
theorem switchTraits_none_of_unknown (ty : String) (core : RawCore)
    (hk : ty ∉ normalKinds) :
    switchTraits ty core = none := by
  simp only [normalKinds, List.mem_cons, not_or] at hk
  unfold switchTraits
  split_ifs with h1 h2
  · simp only [Bool.or_eq_true, decide_eq_true_eq] at h1
    rcases h1 with ((h | h) | h) | h <;> simp_all
  · simp only [Bool.or_eq_true, decide_eq_true_eq] at h2
    rcases h2 with h | h <;> simp_all
  · rfl

/-! ## Claims C5, C9, C10, C3 and the concrete counterexamples -/

/-- C5: when the predefined-type registry holds a record under the raw
definition's original name, normalize returns that stored record itself;
only on a registry miss is the kind-specific normalization computed. -/
theorem c5_registry_wins (registry : String → Option JSVal) (d : RawDef) :
    (∀ fs, d.core.name.bind registry = some (.obj fs) →
      normalize registry d = .ok (.obj fs)) ∧
    (d.core.name.bind registry = none →
      normalize registry d = normalizeDefinition d 0) := by
  constructor
  · intro fs h
    simp [normalize, h, JSVal.truthy]
  · intro h
    simp [normalize, h]

/-- Witness for C5 at a concrete registry and definitions. -/
theorem c5_registry_wins_witness :
    (c5raw.core.name.bind c5reg = some (.obj [("name", .str "date-time")]) ∧
      normalize c5reg c5raw = .ok (.obj [("name", .str "date-time")])) ∧
    (c5missRaw.core.name.bind c5reg = none ∧
      normalize c5reg c5missRaw = normalizeDefinition c5missRaw 0) :=
  ⟨⟨by rfl, (c5_registry_wins c5reg c5raw).1 _ (by rfl)⟩,
   ⟨by rfl, (c5_registry_wins c5reg c5missRaw).2 (by rfl)⟩⟩

/-- name lookup in the alias-name field list. -/
theorem lookupField_itemFields_name (a : String) (pfx : Option String) :
    lookupField (itemFields a pfx) "name" =
      some (.str (toBaclibName a pfx)) := by
  simp only [itemFields]
  split <;> simp [lookupField]

/-- C10: a nested item (level above zero) whose definition carries no range,
size, series, or items normalizes to the bare kebab-case type-name string;
only the top level (level zero) wraps it into an object carrying the name
and type fields. -/
theorem c10_nested_bare_type (core : RawCore) (n ty : String)
    (hname : core.name = some n) (hty : core.type = some ty) (htyne : ty ≠ "")
    (hrange : core.range = none) (hsize : core.size = none)
    (hseries : core.series = none) :
    (∀ level, 0 < level →
      normalizeDefinition (.mk core none) level =
        .ok (.str (toBaclibName ty (some "")))) ∧
    (∃ fs, normalizeDefinition (.mk core none) 0 = .ok (.obj fs) ∧
      lookupField fs "name" = some (.str (toBaclibName n (some ""))) ∧
      lookupField fs "type" = some (.str (toBaclibName ty (some "")))) := by
  constructor
  · intro level hlevel
    have hlz : level ≠ 0 := Nat.pos_iff_ne_zero.mp hlevel
    have hni := normalizeItem_eq (.mk core none) n none
      (by simpa [RawDef.core] using hname)
    simp [normalizeDefinition, hni, hty, htyne,
      switchTraits_none ty core hrange hsize, hseries, withTraits, hlz]
  · refine ⟨itemFields n (some "") ++
      [("type", .str (toBaclibName ty (some "")))], ?_, ?_, ?_⟩
    · have hni := normalizeItem_eq (.mk core none) n (some "")
        (by simpa [RawDef.core] using hname)
      simp [normalizeDefinition, hni, hty, htyne,
        switchTraits_none ty core hrange hsize, hseries, withTraits]
    · rw [lookupField_append, lookupField_itemFields_name]
    · rw [lookupField_append,
        lookupField_itemFields n (some "") "type" (by decide) (by decide)]
      simp [lookupField]

/-- Witness for C10 at a concrete nested reference. -/
theorem c10_nested_bare_type_witness :
    normalizeDefinition c10raw 1 = .ok (.str "whatever-ref") ∧
    (∃ fs, normalizeDefinition c10raw 0 = .ok (.obj fs) ∧
      lookupField fs "name" = some (.str "c-ten") ∧
      lookupField fs "type" = some (.str "whatever-ref")) :=
  ⟨(c10_nested_bare_type { name := some "CTen", type := some "Whatever-Ref" }
      "CTen" "Whatever-Ref" rfl rfl (by decide) rfl rfl rfl).1 1 (by decide),
   (c10_nested_bare_type { name := some "CTen", type := some "Whatever-Ref" }
      "CTen" "Whatever-Ref" rfl rfl (by decide) rfl rfl rfl).2⟩

/-- Counterexample to C3 as stated: the reference definition Foo to type
Bar-Baz normalizes to an object carrying the kebab-case definition name and
the kebab-case type-name string, not to the claimed record with a null alias,
the original type name, and a null base. -/
theorem c3_counterexample :
    normalizeDefinition c3raw 0 =
      .ok (.obj [("alias", .str "Foo"), ("name", .str "foo"),
                 ("type", .str "bar-baz")]) ∧
    lookupField [("alias", JSVal.str "Foo"), ("name", JSVal.str "foo"),
      ("type", JSVal.str "bar-baz")] "base" = none ∧
    lookupField [("alias", JSVal.str "Foo"), ("name", JSVal.str "foo"),
      ("type", JSVal.str "bar-baz")] "name" ≠ some (.str "Bar-Baz") := by
  refine ⟨by rfl, by rfl, ?_⟩
  simp [lookupField]

/-- C3 amended: a raw definition whose type is none of the ten recognized
kind tags, with no series marker and no items, normalizes at top level to an
object pairing the kebab-case definition name with the kebab-case type-name
string (ignoring any range or size constraint), with no base and no null
alias; nested levels yield the bare string. -/
theorem c3_opaque_reference (core : RawCore) (n ty : String)
    (hname : core.name = some n) (hty : core.type = some ty)
    (hkind : ty ∉ normalKinds) (htyne : ty ≠ "")
    (hseries : core.series = none) :
    (∃ fs, normalizeDefinition (.mk core none) 0 = .ok (.obj fs) ∧
      lookupField fs "name" = some (.str (toBaclibName n (some ""))) ∧
      lookupField fs "type" = some (.str (toBaclibName ty (some ""))) ∧
      lookupField fs "base" = none ∧
      lookupField fs "alias" ≠ some .nullv) ∧
    (∀ level, 0 < level →
      normalizeDefinition (.mk core none) level =
        .ok (.str (toBaclibName ty (some "")))) := by
  constructor
  · refine ⟨itemFields n (some "") ++
      [("type", .str (toBaclibName ty (some "")))], ?_, ?_, ?_, ?_, ?_⟩
    · have hni := normalizeItem_eq (.mk core none) n (some "")
        (by simpa [RawDef.core] using hname)
      simp [normalizeDefinition, hni, hty, htyne,
        switchTraits_none_of_unknown ty core hkind, hseries, withTraits]
    · rw [lookupField_append, lookupField_itemFields_name]
    · rw [lookupField_append,
        lookupField_itemFields n (some "") "type" (by decide) (by decide)]
      simp [lookupField]
    · rw [lookupField_append,
        lookupField_itemFields n (some "") "base" (by decide) (by decide)]
      simp [lookupField]
    · rw [lookupField_append]
      by_cases hn : n = toBaclibName n (some "")
      · simp only [itemFields, if_pos hn]
        simp [lookupField]
      · simp only [itemFields, if_neg hn]
        simp [lookupField]
  · intro level hlevel
    have hlz : level ≠ 0 := Nat.pos_iff_ne_zero.mp hlevel
    have hni := normalizeItem_eq (.mk core none) n none
      (by simpa [RawDef.core] using hname)
    simp [normalizeDefinition, hni, hty, htyne,
      switchTraits_none_of_unknown ty core hkind, hseries, withTraits, hlz]

/-- Witness for the amended C3 at the concrete reference definition. -/
theorem c3_opaque_reference_witness :
    "Bar-Baz" ∉ normalKinds ∧
    ((∃ fs, normalizeDefinition c3raw 0 = .ok (.obj fs) ∧
      lookupField fs "name" = some (.str (toBaclibName "Foo" (some ""))) ∧
      lookupField fs "type" = some (.str (toBaclibName "Bar-Baz" (some ""))) ∧
      lookupField fs "base" = none ∧
      lookupField fs "alias" ≠ some .nullv) ∧
    (∀ level, 0 < level →
      normalizeDefinition c3raw level =
        .ok (.str (toBaclibName "Bar-Baz" (some ""))))) :=
  ⟨by decide,
    c3_opaque_reference { name := some "Foo", type := some "Bar-Baz" }
      "Foo" "Bar-Baz" rfl rfl (by decide) (by decide) rfl⟩

/-- Counterexample to C1 as stated: the parsed sequence whose second field
carries the tag number 255 still receives a context trait of 255, although
255 lies outside the claimed valid range 0 to 254. -/
theorem c1_counterexample :
    parseRun c1input = .ok [c1raw] ∧
    elementContext ((typeTraitElem (normalizeDefinition c1raw 0)
        "fields" 1).getD .undef) = some (.numv (.num 255)) ∧
    ¬((255 : ℕ) ≤ 254) :=
  ⟨by rfl, by rfl, by decide⟩

/-- Counterexample to C2 as stated: the generic enumeration C2State with
constants 0 and 1 normalizes with no range trait at all, although the claim
requires range bounds of 0 and 2; only the sorted values trait is present. -/
theorem c2_counterexample :
    typeTrait (normalizeDefinition c2raw 0) "range" = none ∧
    typeTrait (normalizeDefinition c2raw 0) "values" =
      some (.arr [.obj [("name", .str "off"), ("constant", .numv (.num 0))],
                  .obj [("name", .str "on"), ("constant", .numv (.num 1))]]) :=
  ⟨by rfl, by rfl⟩

/-- Counterexample to C4 as stated: the inverted constraint beginning at
offset 17 raises the semantic range error, but the offset the error carries
is 23, the position just past the constraint, not 17. -/
theorem c4_counterexample :
    parseRun c4input = .err ⟨rangeMsg, 23⟩ ∧
    c4input.toList.drop 17 = "(5..3)".toList ∧
    (23 : ℕ) ≠ 17 :=
  ⟨by rfl, by rfl, by decide⟩

/-! ## Length lemmas for matchers and the scanner -/

/-- Consuming an exact literal shortens the text by the literal length. -/
theorem chompLit_length : ∀ (p cs r : List Char), chompLit p cs = some r →
    r.length + p.length = cs.length := by
  intro p
  induction p with
  | nil =>
      intro cs r h
      simp only [chompLit, Option.some.injEq] at h
      subst h
      simp
  | cons c ps ih =>
      intro cs r h
      cases cs with
      | nil => simp [chompLit] at h
      | cons c0 rest =>
          simp only [chompLit] at h
          split at h
          · have := ih rest r h
            simp only [List.length_cons]
            omega
          · exact absurd h (by simp)

/-- A matched digit run is nonempty, so the rest is strictly shorter. -/
theorem chompDigits_lt (cs : List Char) (n : ℕ) (rest : List Char)
    (h : chompDigits cs = some (n, rest)) : rest.length < cs.length := by
  simp only [chompDigits] at h
  split at h
  · exact absurd h (by simp)
  · rename_i hne
    simp only [Option.some.injEq, Prod.mk.injEq] at h
    obtain ⟨-, hr⟩ := h
    subst hr
    have hsum : (cs.takeWhile isDigitA).length + (cs.dropWhile isDigitA).length
        = cs.length := by
      rw [← List.length_append, List.takeWhile_append_dropWhile]
    have hne' : (cs.takeWhile isDigitA).length ≠ 0 :=
      fun hz => hne (List.length_eq_zero.mp hz)
    omega

/-- A matched mandatory-whitespace run is nonempty. -/
theorem wsPlus_lt (cs rest : List Char) (h : wsPlus cs = some rest) :
    rest.length < cs.length := by
  cases cs with
  | nil => simp [wsPlus] at h
  | cons c cs0 =>
      simp only [wsPlus] at h
      split at h
      · simp only [Option.some.injEq] at h
        subst h
        exact Nat.lt_succ_of_le (dropWhile_length_le _ _)
      · exact absurd h (by simp)

/-- The identifier continuation never lengthens the text. -/
theorem identScan_le : ∀ l : List Char, (identScan l).2.length ≤ l.length := by
  intro l
  induction l using identScan.induct with
  | case1 c2 rest2 h p r heq ih =>
      simp only [identScan, if_pos h, List.length_cons]
      exact Nat.le_succ_of_le (Nat.le_succ_of_le ih)
  | case2 c2 rest2 h =>
      simp [identScan, if_neg h]
  | case3 c rest h1 h2 p r heq ih =>
      simp only [identScan, if_pos h2, List.length_cons]
      exact Nat.le_succ_of_le ih
  | case4 c rest h1 h2 =>
      simp [identScan, if_neg h2]
  | case5 => simp [identScan]

/-- The item-name continuation never lengthens the text. -/
theorem lowScan_le : ∀ l : List Char, (lowScan l).2.length ≤ l.length := by
  intro l
  induction l using lowScan.induct with
  | case1 c2 rest2 h p r heq ih =>
      simp only [lowScan, if_pos h, List.length_cons]
      exact Nat.le_succ_of_le (Nat.le_succ_of_le ih)
  | case2 c2 rest2 h =>
      simp [lowScan, if_neg h]
  | case3 c rest h1 h2 p r heq ih =>
      simp only [lowScan, if_pos h2, List.length_cons]
      exact Nat.le_succ_of_le ih
  | case4 c rest h1 h2 =>
      simp [lowScan, if_neg h2]
  | case5 => simp [lowScan]

/-- A successful type-reference identifier match consumes at least one
character. -/
theorem upperIdentM_lt (cs : List Char) (a : String) (rest : List Char)
    (h : upperIdentM cs = some (a, rest)) : rest.length < cs.length := by
  cases cs with
  | nil => simp [upperIdentM] at h
  | cons c cs0 =>
      simp only [upperIdentM] at h
      split at h
      · rcases hident : identScan cs0 with ⟨p, r⟩
        rw [hident] at h
        simp only [Option.some.injEq, Prod.mk.injEq] at h
        obtain ⟨-, hr⟩ := h
        subst hr
        have hle := identScan_le cs0
        rw [hident] at hle
        have hle' : r.length ≤ cs0.length := by simpa using hle
        simp only [List.length_cons]
        omega
      · exact absurd h (by simp)

/-- A successful item-name match consumes at least one character. -/
theorem itemNameM_lt (cs : List Char) (a : String) (rest : List Char)
    (h : itemNameM cs = some (a, rest)) : rest.length < cs.length := by
  cases cs with
  | nil => simp [itemNameM] at h
  | cons c cs0 =>
      simp only [itemNameM] at h
      split at h
      · rcases hident : lowScan cs0 with ⟨p, r⟩
        rw [hident] at h
        simp only [Option.some.injEq, Prod.mk.injEq] at h
        obtain ⟨-, hr⟩ := h
        subst hr
        have hle := lowScan_le cs0
        rw [hident] at hle
        have hle' : r.length ≤ cs0.length := by simpa using hle
        simp only [List.length_cons]
        omega
      · exact absurd h (by simp)

/-- A successful definition-header match consumes at least one character. -/
theorem defNameM_lt (cs : List Char) (a : String) (rest : List Char)
    (h : defNameM cs = some (a, rest)) : rest.length < cs.length := by
  simp only [defNameM, Option.bind_eq_bind, Option.bind_eq_some] at h
  obtain ⟨⟨nm, r1⟩, h1, h⟩ := h
  obtain ⟨r2, h2, h⟩ := h
  simp only [Option.pure_def, Option.some.injEq, Prod.mk.injEq] at h
  obtain ⟨-, hr⟩ := h
  subst hr
  simp only at h2
  have e1 := upperIdentM_lt _ _ _ h1
  have e2 := chompLit_length _ _ _ h2
  have d1 := dropWhile_length_le jsSpace r1
  omega

/-- A successful application-tag match consumes at least one character. -/
theorem appTagM_lt (cs : List Char) (n : ℕ) (rest : List Char)
    (h : appTagM cs = some (n, rest)) : rest.length < cs.length := by
  simp only [appTagM, Option.bind_eq_bind, Option.bind_eq_some] at h
  obtain ⟨r1, h1, h⟩ := h
  obtain ⟨r2, h2, h⟩ := h
  obtain ⟨r3, h3, h⟩ := h
  obtain ⟨⟨n4, r4⟩, h4, h⟩ := h
  obtain ⟨r5, h5, h⟩ := h
  simp only [Option.pure_def, Option.some.injEq, Prod.mk.injEq] at h
  obtain ⟨-, hr⟩ := h
  subst hr
  simp only at h5
  have e1 := chompLit_length _ _ _ h1
  have e2 := chompLit_length _ _ _ h2
  have e3 := wsPlus_lt _ _ h3
  have e4 := chompDigits_lt _ _ _ h4
  have e5 := chompLit_length _ _ _ h5
  have d1 := dropWhile_length_le jsSpace r1
  have d4 := dropWhile_length_le jsSpace r4
  omega

/-- A successful literal match of a nonempty literal consumes at least one
character. -/
theorem litM_lt (w : String) (cs : List Char) (u : Unit) (rest : List Char)
    (hw : w.toList ≠ []) (h : litM w cs = some (u, rest)) :
    rest.length < cs.length := by
  simp only [litM, Option.map_eq_some'] at h
  obtain ⟨r1, h1, h2⟩ := h
  have e1 := chompLit_length _ _ _ h1
  have hlen : w.toList.length ≠ 0 := fun hz => hw (List.length_eq_zero.mp hz)
  simp only [Prod.mk.injEq] at h2
  obtain ⟨-, hr⟩ := h2
  subst hr
  omega

/-- A successful two-word built-in type match consumes at least one
character. -/
theorem twoWordM_lt (w1 w2 : String) (cs : List Char) (u : Unit)
    (rest : List Char) (h : twoWordM w1 w2 cs = some (u, rest)) :
    rest.length < cs.length := by
  simp only [twoWordM, Option.bind_eq_bind, Option.bind_eq_some] at h
  obtain ⟨r1, h1, h⟩ := h
  obtain ⟨r2, h2, h⟩ := h
  obtain ⟨r3, h3, h⟩ := h
  simp only [Option.pure_def, Option.some.injEq, Prod.mk.injEq] at h
  obtain ⟨-, hr⟩ := h
  subst hr
  have e1 := chompLit_length _ _ _ h1
  have e2 := wsPlus_lt _ _ h2
  have e3 := chompLit_length _ _ _ h3
  omega

/-- The optional SIZE group never lengthens the text. -/
theorem seqSizeGroup_le (cs : List Char) (n : ℕ) (c1 : List Char)
    (h : seqSizeGroup cs = some (n, c1)) : c1.length ≤ cs.length := by
  simp only [seqSizeGroup, Option.bind_eq_bind, Option.bind_eq_some] at h
  obtain ⟨ra, ha, h⟩ := h
  obtain ⟨rb, hb, h⟩ := h
  obtain ⟨⟨nc, rc⟩, hc, h⟩ := h
  obtain ⟨rd, hd, h⟩ := h
  simp only [Option.pure_def, Option.some.injEq, Prod.mk.injEq] at h
  obtain ⟨-, hr⟩ := h
  subst hr
  simp only at hd
  have ea := chompLit_length _ _ _ ha
  have eb := chompLit_length _ _ _ hb
  have ec := chompDigits_lt _ _ _ hc
  have ed := chompLit_length _ _ _ hd
  have da := dropWhile_length_le jsSpace ra
  have db := dropWhile_length_le jsSpace rb
  have dc := dropWhile_length_le jsSpace rc
  have dd := dropWhile_length_le jsSpace rd
  have l1 : ("SIZE".toList).length = 4 := rfl
  have l2 : ("(".toList).length = 1 := rfl
  have l3 : (")".toList).length = 1 := rfl
  omega

/-- A successful sequence-of match consumes at least one character. -/
theorem seqOfM_lt (cs : List Char) (a : Option ℕ) (rest : List Char)
    (h : seqOfM cs = some (a, rest)) : rest.length < cs.length := by
  simp only [seqOfM, Option.bind_eq_bind, Option.bind_eq_some] at h
  obtain ⟨r1, h1, h⟩ := h
  have e1 := chompLit_length _ _ _ h1
  have el : ("SEQUENCE".toList).length = 8 := rfl
  have d1 := dropWhile_length_le jsSpace r1
  cases hg : seqSizeGroup (r1.dropWhile jsSpace) with
  | some pr =>
      obtain ⟨n2, r2⟩ := pr
      rw [hg] at h
      simp only [Option.map_eq_some'] at h
      obtain ⟨r3, h3, h4⟩ := h
      simp only [Prod.mk.injEq] at h4
      obtain ⟨-, hr⟩ := h4
      subst hr
      have eg := seqSizeGroup_le _ _ _ hg
      have e3 := chompLit_length _ _ _ h3
      omega
  | none =>
      rw [hg] at h
      simp only [Option.map_eq_some'] at h
      obtain ⟨r3, h3, h4⟩ := h
      simp only [Prod.mk.injEq] at h4
      obtain ⟨-, hr⟩ := h4
      subst hr
      have e3 := chompLit_length _ _ _ h3
      omega

/-- A successful size-keyword match consumes at least one character. -/
theorem sizeKwM_lt (cs : List Char) (b : Bool) (rest : List Char)
    (h : sizeKwM cs = some (b, rest)) : rest.length < cs.length := by
  simp only [sizeKwM] at h
  split at h
  · rename_i r1 h1
    simp only [Option.map_eq_some'] at h
    obtain ⟨r2, h2, h3⟩ := h
    simp only [Prod.mk.injEq] at h3
    obtain ⟨-, hr⟩ := h3
    subst hr
    have e1 := chompLit_length _ _ _ h1
    have e2 := chompLit_length _ _ _ h2
    have d1 := dropWhile_length_le jsSpace r1
    have l1 : ("(".toList).length = 1 := rfl
    have l2 : ("SIZE".toList).length = 4 := rfl
    omega
  · simp only [Option.map_eq_some'] at h
    obtain ⟨r2, h2, h3⟩ := h
    simp only [Prod.mk.injEq] at h3
    obtain ⟨-, hr⟩ := h3
    subst hr
    have e2 := chompLit_length _ _ _ h2
    have d1 := dropWhile_length_le jsSpace cs
    have l2 : ("SIZE".toList).length = 4 := rfl
    omega

/-- The fraction scan never lengthens the text. -/
theorem numFrac_le (ip : ℕ) (cs2 : List Char) :
    (numFrac ip cs2).2.length ≤ cs2.length := by
  rw [numFrac.eq_def]
  split
  · dsimp only
    split
    · simp
    · simp only [List.length_cons]
      exact Nat.le_succ_of_le (dropWhile_length_le _ _)
  · simp

/-- The unsigned numeric part consumes at least one character. -/
theorem numLitCore_lt (neg : Bool) (cs1 : List Char) (q : ℚ)
    (rest : List Char) (h : numLitCore neg cs1 = some (q, rest)) :
    rest.length < cs1.length := by
  simp only [numLitCore] at h
  cases hd : chompDigits cs1 with
  | none => rw [hd] at h; exact absurd h (by simp)
  | some pr =>
      obtain ⟨ip, cs2⟩ := pr
      rw [hd] at h
      simp only [Option.some.injEq, Prod.mk.injEq] at h
      obtain ⟨-, hr⟩ := h
      subst hr
      have e1 := chompDigits_lt _ _ _ hd
      have e2 := numFrac_le ip cs2
      omega

/-- A successful numeric-literal match consumes at least one character. -/
theorem numLitM_lt (cs : List Char) (q : ℚ) (rest : List Char)
    (h : numLitM cs = some (q, rest)) : rest.length < cs.length := by
  cases cs with
  | nil =>
      simp only [numLitM] at h
      exact numLitCore_lt _ _ _ _ h
  | cons c cs0 =>
      by_cases hp : c = '+'
      · subst hp
        simp only [numLitM] at h
        have := numLitCore_lt _ _ _ _ h
        simp only [List.length_cons]
        omega
      · by_cases hm : c = '-'
        · subst hm
          simp only [numLitM] at h
          have := numLitCore_lt _ _ _ _ h
          simp only [List.length_cons]
          omega
        · have hh : numLitM (c :: cs0) = numLitCore false (c :: cs0) := by
            rw [numLitM.eq_def]
            split
            · rename_i heq
              injection heq with h1 h2
              exact absurd h1 hp
            · rename_i heq
              injection heq with h1 h2
              exact absurd h1 hm
            · rfl
          rw [hh] at h
          exact numLitCore_lt _ _ _ _ h

/-- A successful low-bound match consumes at least one character. -/
theorem lowBoundM_lt (cs : List Char) (v : JSNum) (rest : List Char)
    (h : lowBoundM cs = some (v, rest)) : rest.length < cs.length := by
  simp only [lowBoundM] at h
  cases hm : chompLit "MIN".toList cs with
  | some r =>
      rw [hm] at h
      simp only [Option.some.injEq, Prod.mk.injEq] at h
      obtain ⟨-, hr⟩ := h
      subst hr
      have := chompLit_length _ _ _ hm
      have l1 : ("MIN".toList).length = 3 := rfl
      omega
  | none =>
      rw [hm] at h
      simp only [Option.map_eq_some'] at h
      obtain ⟨⟨q, r⟩, hq, hr⟩ := h
      simp only [Prod.mk.injEq] at hr
      obtain ⟨-, hr⟩ := hr
      subst hr
      exact numLitM_lt _ _ _ hq

/-- A successful high-bound match consumes at least one character. -/
theorem highBoundM_lt (cs : List Char) (v : JSNum) (rest : List Char)
    (h : highBoundM cs = some (v, rest)) : rest.length < cs.length := by
  simp only [highBoundM] at h
  cases hm : chompLit "MAX".toList cs with
  | some r =>
      rw [hm] at h
      simp only [Option.some.injEq, Prod.mk.injEq] at h
      obtain ⟨-, hr⟩ := h
      subst hr
      have := chompLit_length _ _ _ hm
      have l1 : ("MAX".toList).length = 3 := rfl
      omega
  | none =>
      rw [hm] at h
      simp only [Option.map_eq_some'] at h
      obtain ⟨⟨q, r⟩, hq, hr⟩ := h
      simp only [Prod.mk.injEq] at hr
      obtain ⟨-, hr⟩ := hr
      subst hr
      exact numLitM_lt _ _ _ hq

/-- The optional dotted high bound never lengthens the text. -/
theorem rangeHigh_le (cs : List Char) (hi : JSNum) (c1 : List Char)
    (h : rangeHigh cs = some (hi, c1)) : c1.length ≤ cs.length := by
  simp only [rangeHigh, Option.bind_eq_bind, Option.bind_eq_some] at h
  obtain ⟨ra, ha, h⟩ := h
  obtain ⟨⟨hb, rb⟩, hc, h⟩ := h
  simp only [Option.pure_def, Option.some.injEq, Prod.mk.injEq] at h
  obtain ⟨-, hr⟩ := h
  subst hr
  have ea := chompLit_length _ _ _ ha
  have ec := highBoundM_lt _ _ _ hc
  have da := dropWhile_length_le jsSpace ra
  have db := dropWhile_length_le jsSpace rb
  omega

/-- A successful range-constraint match consumes at least one character. -/
theorem rangeM_lt (cs : List Char) (a : JSNum × Option JSNum)
    (rest : List Char) (h : rangeM cs = some (a, rest)) :
    rest.length < cs.length := by
  simp only [rangeM, Option.bind_eq_bind, Option.bind_eq_some] at h
  obtain ⟨r1, h1, h⟩ := h
  obtain ⟨⟨lo, r2⟩, h2, h⟩ := h
  have e1 := chompLit_length _ _ _ h1
  have e2 := lowBoundM_lt _ _ _ h2
  have l1 : ("(".toList).length = 1 := rfl
  have d1 := dropWhile_length_le jsSpace r1
  have d2 := dropWhile_length_le jsSpace r2
  simp only at h
  cases hg : rangeHigh (r2.dropWhile jsSpace) with
  | some pr =>
      obtain ⟨hi, r3⟩ := pr
      rw [hg] at h
      simp only [Option.map_eq_some'] at h
      obtain ⟨r4, h4, h5⟩ := h
      simp only [Prod.mk.injEq] at h5
      obtain ⟨-, hr⟩ := h5
      subst hr
      have eg := rangeHigh_le _ _ _ hg
      have e4 := chompLit_length _ _ _ h4
      omega
  | none =>
      rw [hg] at h
      simp only [Option.map_eq_some'] at h
      obtain ⟨r4, h4, h5⟩ := h
      simp only [Prod.mk.injEq] at h5
      obtain ⟨-, hr⟩ := h5
      subst hr
      have e4 := chompLit_length _ _ _ h4
      omega

/-- A successful simple-item-number match consumes at least one
character. -/
theorem simpleNumM_lt (cs : List Char) (n : ℕ) (rest : List Char)
    (h : simpleNumM cs = some (n, rest)) : rest.length < cs.length := by
  simp only [simpleNumM, Option.bind_eq_bind, Option.bind_eq_some] at h
  obtain ⟨r1, h1, h⟩ := h
  obtain ⟨⟨n2, r2⟩, h2, h⟩ := h
  obtain ⟨r3, h3, h⟩ := h
  simp only [Option.pure_def, Option.some.injEq, Prod.mk.injEq] at h
  obtain ⟨-, hr⟩ := h
  subst hr
  simp only at h3
  have e1 := chompLit_length _ _ _ h1
  have e2 := chompDigits_lt _ _ _ h2
  have e3 := chompLit_length _ _ _ h3
  have d1 := dropWhile_length_le jsSpace r1
  have d2 := dropWhile_length_le jsSpace r2
  omega

/-- A successful context-tag match consumes at least one character. -/
theorem ctxTagM_lt (cs : List Char) (n : ℕ) (rest : List Char)
    (h : ctxTagM cs = some (n, rest)) : rest.length < cs.length := by
  simp only [ctxTagM, Option.bind_eq_bind, Option.bind_eq_some] at h
  obtain ⟨r1, h1, h⟩ := h
  obtain ⟨⟨n2, r2⟩, h2, h⟩ := h
  obtain ⟨r3, h3, h⟩ := h
  simp only [Option.pure_def, Option.some.injEq, Prod.mk.injEq] at h
  obtain ⟨-, hr⟩ := h
  subst hr
  simp only at h3
  have e1 := chompLit_length _ _ _ h1
  have e2 := chompDigits_lt _ _ _ h2
  have e3 := chompLit_length _ _ _ h3
  omega

/-! ### Length lemmas for the scanner and the match primitives -/

/-- The scanner remainder never lengthens the text. -/
theorem skipPrefixA_le : ∀ (mode : Bool) (l : List Char),
    (skipPrefixA mode l).2.length ≤ l.length := by
  intro mode l
  induction mode, l using skipPrefixA.induct with
  | case1 => simp [skipPrefixA.eq_1]
  | case2 rest p r heq ih =>
      have ih' : r.length ≤ rest.length := by
        rw [heq] at ih
        simpa using ih
      rw [skipPrefixA.eq_2, if_pos rfl, heq]
      simpa using Nat.le_succ_of_le ih'
  | case3 c rest hne p r heq ih =>
      have ih' : r.length ≤ rest.length := by
        rw [heq] at ih
        simpa using ih
      rw [skipPrefixA.eq_2, if_neg hne, heq]
      simpa using Nat.le_succ_of_le ih'
  | case4 => simp [skipPrefixA.eq_3]
  | case5 rest2 p r heq ih =>
      have ih' : r.length ≤ rest2.length := by
        rw [heq] at ih
        simpa using ih
      rw [skipPrefixA.eq_4, heq]
      simpa using Nat.le_succ_of_le (Nat.le_succ_of_le ih')
  | case6 c rest hnd hsp p r heq ih =>
      have ih' : r.length ≤ rest.length := by
        rw [heq] at ih
        simpa using ih
      rw [skipPrefixA.eq_5 c rest hnd, if_pos hsp, heq]
      simpa using Nat.le_succ_of_le ih'
  | case7 c rest hnd hns =>
      rw [skipPrefixA.eq_5 c rest hnd, if_neg hns]

/-- Skipping insignificant text never lengthens the remaining text and
leaves the content untouched. -/
theorem skipWC_le (s : PState) :
    (skipWC s).1.text.length ≤ s.text.length ∧
    (skipWC s).1.content = s.content := by
  simp only [skipWC, skipPrefix]
  rcases hp : skipPrefixA false s.text with ⟨p, r⟩
  have hle := skipPrefixA_le false s.text
  rw [hp] at hle
  simp only at hle
  exact ⟨hle, by simp⟩

/-- A successful optional match strictly shortens the remaining text and
leaves the content untouched, provided the matcher is strict. -/
theorem tryM_lt {α : Type}
    (m : List Char → Option (α × List Char))
    (hm : ∀ cs a rest, m cs = some (a, rest) → rest.length < cs.length)
    (s : PState) (a : α) (s' : PState) (h : tryM m s = some (a, s')) :
    s'.text.length < s.text.length ∧ s'.content = s.content := by
  simp only [tryM] at h
  cases hr : m s.text with
  | none => rw [hr] at h; exact absurd h (by simp)
  | some pr =>
      obtain ⟨a0, rest⟩ := pr
      rw [hr] at h
      simp only [Option.some.injEq, Prod.mk.injEq] at h
      obtain ⟨-, hs⟩ := h
      subst hs
      have h1 := hm _ _ _ hr
      have h2 := skipWC_le { s with text := rest }
      exact ⟨lt_of_le_of_lt h2.1 h1, h2.2⟩

/-- On failure of the matcher, the optional match does not change the
state. -/
theorem tryM_none {α : Type} (m : List Char → Option (α × List Char))
    (s : PState) (h : m s.text = none) : tryM m s = none := by
  simp [tryM, h]

/-- A successful mandatory match strictly shortens the remaining text and
leaves the content untouched, provided the matcher is strict. -/
theorem reqM_lt {α : Type}
    (m : List Char → Option (α × List Char))
    (hm : ∀ cs a rest, m cs = some (a, rest) → rest.length < cs.length)
    (s : PState) (a : α) (s' : PState) (h : reqM m s = .ok (a, s')) :
    s'.text.length < s.text.length ∧ s'.content = s.content := by
  simp only [reqM] at h
  cases ht : tryM m s with
  | none => rw [ht] at h; exact absurd h (by simp)
  | some pr =>
      rw [ht] at h
      simp only [Except.ok.injEq] at h
      subst h
      exact tryM_lt m hm s a s' ht

/-- C4 amended: when the range pattern matches with a low bound above the
high bound, the semantic range error is raised, and the offset it carries is
the parser position just after the whole constraint and any following
insignificant text, strictly beyond the offset at which the constraint
began. -/
theorem c4_range_error_offset (isSize : Bool) (core : RawCore) (s : PState)
    (lo : JSNum) (hi? : Option JSNum) (s' : PState)
    (hinv : s.text.length ≤ s.content.length)
    (hm : tryM rangeM s = some ((lo, hi?), s'))
    (hgt : lo.jsGt (hi?.getD lo) = true) :
    parseRangeConstraint isSize core s = .error ⟨rangeMsg, idx s'⟩ ∧
    idx s < idx s' := by
  constructor
  · cases isSize <;> simp [parseRangeConstraint, hm, hgt]
  · have hlt := tryM_lt rangeM rangeM_lt s _ s' hm
    simp only [idx, hlt.2]
    omega

/-- Witness for the amended C4 at the concrete inverted constraint. -/
theorem c4_range_error_offset_witness :
    parseRangeConstraint false {}
        ⟨"(5..3)".toList, "(5..3)".toList, ""⟩ =
      .error ⟨rangeMsg, idx ⟨"(5..3)".toList, [], ""⟩⟩ ∧
    idx ⟨"(5..3)".toList, "(5..3)".toList, ""⟩ <
      idx ⟨"(5..3)".toList, [], ""⟩ :=
  c4_range_error_offset false {} ⟨"(5..3)".toList, "(5..3)".toList, ""⟩
    (.num 5) (some (.num 3)) ⟨"(5..3)".toList, [], ""⟩
    (by decide) (by rfl) (by rfl)

/-- The index reported for the first invalid character is within bounds,
names an invalid character, and everything before it is valid. -/
theorem findBadIdx_spec : ∀ (l : List Char) (i : ℕ), findBadIdx l = some i →
    ∃ h : i < l.length, validChar (l.get ⟨i, h⟩) = false ∧
      ∀ j (hj : j < i), validChar (l.get ⟨j, Nat.lt_trans hj h⟩) = true := by
  intro l
  induction l with
  | nil => intro i h; simp [findBadIdx] at h
  | cons c rest ih =>
      intro i h
      simp only [findBadIdx] at h
      by_cases hv : validChar c
      · rw [if_neg (by simp [hv])] at h
        simp only [Option.map_eq_some'] at h
        obtain ⟨i0, hi0, hsum⟩ := h
        subst hsum
        obtain ⟨hb, hval, hpre⟩ := ih i0 hi0
        refine ⟨by simpa using Nat.succ_lt_succ hb, by simpa using hval, ?_⟩
        intro j hj
        cases j with
        | zero => simpa using hv
        | succ j0 =>
            have hj0 : j0 < i0 := Nat.lt_of_succ_lt_succ hj
            simpa using hpre j0 hj0
      · rw [if_pos (by simp [hv])] at h
        simp only [Option.some.injEq] at h
        subst h
        refine ⟨by simp, by simpa using hv, ?_⟩
        intro j hj
        exact absurd hj (Nat.not_lt_zero j)

/-- Whenever some character is invalid, a first invalid index exists. -/
theorem findBadIdx_isSome : ∀ l : List Char,
    l.any (fun c => !validChar c) = true → (findBadIdx l).isSome := by
  intro l
  induction l with
  | nil => intro h; simp at h
  | cons c rest ih =>
      intro h
      simp only [findBadIdx]
      by_cases hv : validChar c
      · rw [if_neg (by simp [hv])]
        simp only [List.any_cons, Bool.or_eq_true, Bool.not_eq_true'] at h
        rcases h with h | h
        · exact absurd h (by simp [hv])
        · have := ih h
          simpa using this
      · rw [if_pos (by simp [hv])]
        simp

/-- C9: an input containing a byte other than tab, newline, and printable
ASCII after line-ending normalization makes parse fail with the encoding
error before any grammar parsing, and the offset the error carries is the
position of the first offending byte. -/
theorem c9_encoding_error (input : String)
    (h : (normalizeNewlines input.toList).any (fun c => !validChar c) = true) :
    ∃ i, parseRun input = .err ⟨invalidMsg, i⟩ ∧
      ∃ hlt : i < (normalizeNewlines input.toList).length,
        validChar ((normalizeNewlines input.toList).get ⟨i, hlt⟩) = false ∧
        ∀ j (hj : j < i),
          validChar ((normalizeNewlines input.toList).get
            ⟨j, Nat.lt_trans hj hlt⟩) = true := by
  have hsome := findBadIdx_isSome _ h
  cases hf : findBadIdx (normalizeNewlines input.toList) with
  | none => rw [hf] at hsome; exact absurd hsome (by simp)
  | some i =>
      obtain ⟨hb, hval, hpre⟩ := findBadIdx_spec _ i hf
      refine ⟨i, ?_, hb, hval, hpre⟩
      simp only [parseRun]
      rw [hf]

/-- Witness for C9 at a concrete input with one non-ASCII byte. -/
theorem c9_encoding_error_witness :
    (normalizeNewlines c9input.toList).any (fun c => !validChar c) = true ∧
    (∃ i, parseRun c9input = .err ⟨invalidMsg, i⟩ ∧
      ∃ hlt : i < (normalizeNewlines c9input.toList).length,
        validChar ((normalizeNewlines c9input.toList).get ⟨i, hlt⟩) = false ∧
        ∀ j (hj : j < i),
          validChar ((normalizeNewlines c9input.toList).get
            ⟨j, Nat.lt_trans hj hlt⟩) = true) :=
  ⟨by rfl, c9_encoding_error c9input (by rfl)⟩

/-! ## Totality of normalization on structurally valid input -/

/-- Membership of a predicate is preserved by the stable insertion. -/
theorem all_insertByNumber (p : RawDef → Bool) (x : RawDef)
    (l : List RawDef) :
    (insertByNumber x l).all p = (p x && l.all p) := by
  induction l with
  | nil => simp [insertByNumber]
  | cons y ys ih =>
      simp only [insertByNumber]
      split
      · simp [List.all_cons]
      · simp only [List.all_cons, ih]
        cases p x <;> cases p y <;> simp

/-- Membership of a predicate is preserved by the stable sort. -/
theorem all_jsSortByNumber (p : RawDef → Bool) (l : List RawDef) :
    (jsSortByNumber l).all p = l.all p := by
  have key : ∀ (l acc : List RawDef),
      (l.foldl (fun a x => insertByNumber x a) acc).all p =
        (acc.all p && l.all p) := by
    intro l
    induction l with
    | nil => intro acc; simp
    | cons x xs ih =>
        intro acc
        simp only [List.foldl_cons]
        rw [ih (insertByNumber x acc), all_insertByNumber]
        simp only [List.all_cons]
        cases p x <;> cases acc.all p <;> simp
  simpa [jsSortByNumber] using key l []

/-- The simple-element construction succeeds whenever every item has a
name. -/
theorem normSimpleElems_ok (k : String) : ∀ l : List RawDef,
    l.all (fun i => i.core.name.isSome) = true →
    ∃ vs, normSimpleElems k l = .ok vs := by
  intro l
  induction l with
  | nil => intro _; exact ⟨[], rfl⟩
  | cons item rest ih =>
      intro h
      simp only [List.all_cons, Bool.and_eq_true] at h
      obtain ⟨hn, hr⟩ := h
      obtain ⟨nm, hnm⟩ := Option.isSome_iff_exists.mp hn
      obtain ⟨vs, hvs⟩ := ih hr
      refine ⟨JSVal.obj (itemFields nm none ++
        [(k, numberVal item.core.number)]) :: vs, ?_⟩
      simp [normSimpleElems, normalizeItem_eq item nm none hnm, hvs]

/-- The tail of normalizeDefinition always succeeds. -/
theorem withTraits_ok (res : List (String × JSVal)) (rt : String) (lv : ℕ)
    (tr : Option (List (String × JSVal))) :
    ∃ v, withTraits res rt lv tr = .ok v := by
  cases tr with
  | some t => exact ⟨_, rfl⟩
  | none =>
      simp only [withTraits]
      split
      · exact ⟨_, rfl⟩
      · exact ⟨_, rfl⟩

/-- Manual unfolding equation for wfRaw on a constructor. -/
theorem wfRaw_mk (core : RawCore) (items? : Option (List RawDef)) :
    wfRaw (.mk core items?) =
      (core.name.isSome &&
      (match core.type with
       | some ty => !(ty = "")
       | none => false) &&
      (match items? with
       | none => true
       | some l =>
           if core.type = some "BitString" || core.type = some "Enumerated" then
             l.all (fun i => i.core.name.isSome)
           else wfAll l)) := by
  cases items? with
  | none => rw [wfRaw.eq_1]
  | some l => rw [wfRaw.eq_2]

/-- Manual unfolding equation for wfAll on a cons cell. -/
theorem wfAll_cons (d : RawDef) (rest : List RawDef) :
    wfAll (d :: rest) = (wfRaw d && wfAll rest) := wfAll.eq_2 d rest

/-- Normalization and the complex-element construction are total on
structurally valid input, by strong induction on size. -/
theorem norm_ok_aux : ∀ n : ℕ,
    (∀ d : RawDef, sizeOf d ≤ n → wfRaw d = true → ∀ level,
      ∃ v, normalizeDefinition d level = .ok v) ∧
    (∀ l : List RawDef, sizeOf l ≤ n → wfAll l = true → ∀ ty level,
      ∃ vs, normComplexItems ty level l = .ok vs) := by
  intro n
  induction n using Nat.strong_induction_on with
  | _ n ih =>
      constructor
      · rintro ⟨core, items?⟩ hsize hwf level
        rw [wfRaw_mk] at hwf
        simp only [Bool.and_eq_true] at hwf
        obtain ⟨⟨hname, htyb⟩, hitems⟩ := hwf
        obtain ⟨nm, hnm⟩ := Option.isSome_iff_exists.mp hname
        cases hty : core.type with
        | none => rw [hty] at htyb; simp at htyb
        | some ty =>
            rw [hty] at htyb
            have htyne : ¬(ty = "") := by
              intro hz
              rw [hz] at htyb
              simp at htyb
            have hni := normalizeItem_eq (.mk core items?) nm
              (if level = 0 then some "" else none)
              (by simpa [RawDef.core] using hnm)
            cases items? with
            | none =>
                obtain ⟨v, hv⟩ := withTraits_ok
                  (itemFields nm (if level = 0 then some "" else none))
                  (toBaclibName ty (some "")) level
                  (match core.series with
                   | some s =>
                       if s.truthy then
                         some (("series", s.toVal) :: (switchTraits ty core).getD [])
                       else switchTraits ty core
                   | none => switchTraits ty core)
                exact ⟨v, by simp [normalizeDefinition, hni, hty, htyne, hv]⟩
            | some l =>
                by_cases hemp : l.isEmpty
                · obtain ⟨v, hv⟩ := withTraits_ok
                    (itemFields nm (if level = 0 then some "" else none))
                    (toBaclibName ty (some "")) level
                    (match core.series with
                     | some s =>
                         if s.truthy then
                           some (("series", s.toVal) :: (switchTraits ty core).getD [])
                         else switchTraits ty core
                     | none => switchTraits ty core)
                  exact ⟨v, by simp [normalizeDefinition, hni, hty, htyne, hemp, hv]⟩
                · have hsl : sizeOf l < n := by
                    have h1 : sizeOf (RawDef.mk core (some l)) ≤ n := hsize
                    simp only [RawDef.mk.sizeOf_spec, Option.some.sizeOf_spec] at h1
                    omega
                  by_cases hsimple : ty = "BitString" ∨ ty = "Enumerated"
                  · have hall : l.all (fun i => i.core.name.isSome) = true := by
                      rw [hty] at hitems
                      rcases hsimple with h | h <;> subst h <;>
                        simpa using hitems
                    have hsorted : (jsSortByNumber l).all
                        (fun i => i.core.name.isSome) = true := by
                      rw [all_jsSortByNumber]
                      exact hall
                    rcases hsimple with h | h <;> subst h
                    · obtain ⟨vs, hvs⟩ := normSimpleElems_ok "position"
                        (jsSortByNumber l) hsorted
                      obtain ⟨v, hv⟩ := withTraits_ok
                        (itemFields nm (if level = 0 then some "" else none))
                        (toBaclibName "BitString" (some "")) level
                        (some (enhanceKnownTypes (RawDef.mk core (some l))
                          [("bits", JSVal.arr vs)]))
                      exact ⟨v, by
                        simp [normalizeDefinition, hni, hty, htyne, hemp,
                          itemsNumberOf, itemsNameOf, hvs, hv]⟩
                    · obtain ⟨vs, hvs⟩ := normSimpleElems_ok "constant"
                        (jsSortByNumber l) hsorted
                      obtain ⟨v, hv⟩ := withTraits_ok
                        (itemFields nm (if level = 0 then some "" else none))
                        (toBaclibName "Enumerated" (some "")) level
                        (some (enhanceKnownTypes (RawDef.mk core (some l))
                          [("values", JSVal.arr vs)]))
                      exact ⟨v, by
                        simp [normalizeDefinition, hni, hty, htyne, hemp,
                          itemsNumberOf, itemsNameOf, hvs, hv]⟩
                  · obtain ⟨hs1, hs2⟩ := not_or.mp hsimple
                    have hwl : wfAll l = true := by
                      rw [hty] at hitems
                      simpa [hs1, hs2] using hitems
                    obtain ⟨vs, hvs⟩ :=
                      ((ih (sizeOf l) hsl).2) l le_rfl hwl ty level
                    have hnum : itemsNumberOf ty = none :=
                      itemsNumberOf.eq_3 ty hs1 hs2
                    obtain ⟨v, hv⟩ := withTraits_ok
                      (itemFields nm (if level = 0 then some "" else none))
                      (toBaclibName ty (some "")) level
                      (some (enhanceKnownTypes (RawDef.mk core (some l))
                        [((itemsNameOf ty).getD "undefined", JSVal.arr vs)]))
                    exact ⟨v, by
                      simp [normalizeDefinition, hni, hty, htyne, hemp,
                        hnum, hvs, hv]⟩
      · intro l hsize hwl ty level
        cases l with
        | nil => exact ⟨[], rfl⟩
        | cons item rest =>
            rw [wfAll_cons] at hwl
            simp only [Bool.and_eq_true] at hwl
            obtain ⟨hitem, hrest⟩ := hwl
            have hname : item.core.name.isSome = true := by
              rcases item with ⟨icore, iitems⟩
              rw [wfRaw_mk] at hitem
              simp only [Bool.and_eq_true] at hitem
              exact hitem.1.1
            obtain ⟨nm, hnm⟩ := Option.isSome_iff_exists.mp hname
            have hsi : sizeOf item < n := by
              have h1 : sizeOf (item :: rest) ≤ n := hsize
              simp only [List.cons.sizeOf_spec] at h1
              omega
            have hsr : sizeOf rest < n := by
              have h1 : sizeOf (item :: rest) ≤ n := hsize
              simp only [List.cons.sizeOf_spec] at h1
              have := Nat.pos_of_ne_zero (fun hz : sizeOf item = 0 => by
                rcases item with ⟨icore, iitems⟩
                simp [RawDef.mk.sizeOf_spec] at hz)
              omega
            obtain ⟨t, ht⟩ := ((ih (sizeOf item) hsi).1) item le_rfl hitem
              (level + 1)
            obtain ⟨vs, hvs⟩ := ((ih (sizeOf rest) hsr).2) rest le_rfl hrest
              ty level
            simp [normComplexItems, normalizeItem_eq item nm none hnm,
              ht, hvs]

/-- C6: on every structurally valid raw definition (the shape a successful
parse produces: name present, type present, items named, with nested types
on structured items), normalize returns a value and never reaches its error
branches. -/
theorem c6_normalize_total (registry : String → Option JSVal) (d : RawDef)
    (h : wfRaw d = true) : ∃ v, normalize registry d = .ok v := by
  rcases hreg : d.core.name.bind registry with _ | v
  · obtain ⟨v, hv⟩ := (norm_ok_aux (sizeOf d)).1 d le_rfl h 0
    exact ⟨v, by simp [normalize, hreg, hv]⟩
  · by_cases ht : v.truthy
    · exact ⟨v, by simp [normalize, hreg, ht]⟩
    · obtain ⟨w, hw⟩ := (norm_ok_aux (sizeOf d)).1 d le_rfl h 0
      exact ⟨w, by simp [normalize, hreg, ht, hw]⟩

/-- Witness for C6 at a concrete nested definition and the empty registry. -/
theorem c6_normalize_total_witness :
    wfRaw c6raw = true ∧
    (∃ v, normalize (fun _ => none) c6raw = .ok v) :=
  ⟨by rfl, c6_normalize_total (fun _ => none) c6raw (by rfl)⟩

/-! ## The context-tag rule and the generic enumeration traits -/

/-- The alias-name field list never holds a context key. -/
theorem lookupField_itemFields_context (a : String) (pfx : Option String) :
    lookupField (itemFields a pfx) "context" = none :=
  lookupField_itemFields a pfx "context" (by decide) (by decide)

/-- C1 (amended): every normalized option or field of a structured kind
carries the context trait exactly when the raw item tag number is a
nonnegative integer; the source imposes no upper bound, so numbers of 255 and
above keep their context trait, while a negative or non-integer number yields
no trait, silently. -/
theorem c1_context_rule (enclTy : String) (level : ℕ) :
    ∀ (l : List RawDef) (elems : List JSVal),
      normComplexItems enclTy level l = .ok elems →
      ∀ (i : ℕ) (item : RawDef), l[i]? = some item →
      ∃ e, elems[i]? = some e ∧
        elementContext e =
          (if isNonnegInt item.core.number then
            some (numberVal item.core.number) else none) := by
  intro l
  induction l with
  | nil => intro elems _ i item hi; simp at hi
  | cons x rest ih =>
      intro elems h i item hi
      simp only [normComplexItems] at h
      cases hnx : normalizeItem x none with
      | error e => rw [hnx] at h; exact absurd h (by simp)
      | ok element =>
          rw [hnx] at h
          cases hnd : normalizeDefinition x (level + 1) with
          | error e => rw [hnd] at h; exact absurd h (by simp)
          | ok t =>
              rw [hnd] at h
              cases hrest : normComplexItems enclTy level rest with
              | error e => rw [hrest] at h; exact absurd h (by simp)
              | ok elems2 =>
                  rw [hrest] at h
                  simp only [Except.ok.injEq] at h
                  subst h
                  cases i with
                  | succ j =>
                      simp only [List.getElem?_cons_succ] at hi ⊢
                      exact ih elems2 hrest j item hi
                  | zero =>
                      simp only [List.getElem?_cons_zero,
                        Option.some.injEq] at hi
                      subst hi
                      cases hnm : x.core.name with
                      | none => simp [normalizeItem, hnm] at hnx
                      | some a =>
                          rw [normalizeItem_eq x a none hnm] at hnx
                          simp only [Except.ok.injEq] at hnx
                          subst hnx
                          refine ⟨_, List.getElem?_cons_zero, ?_⟩
                          by_cases hnn : isNonnegInt x.core.number = true
                          · by_cases hop :
                                (enclTy = "SEQUENCE" && x.core.optional) = true
                            · simp [elementContext, hnn, hop,
                                lookupField_append,
                                lookupField_itemFields_context, lookupField]
                            · simp [elementContext, hnn, hop,
                                lookupField_append,
                                lookupField_itemFields_context, lookupField]
                          · by_cases hop :
                                (enclTy = "SEQUENCE" && x.core.optional) = true
                            · simp [elementContext, hnn, hop,
                                lookupField_append,
                                lookupField_itemFields_context, lookupField]
                            · simp [elementContext, hnn, hop,
                                lookupField_append,
                                lookupField_itemFields_context, lookupField]

/-- Witness for C1 at the two parsed fields of C-One: the field tagged 0 and
the field tagged 255 both carry their context trait. -/
theorem c1_context_rule_witness :
    ∃ e,
      ([.obj [("name", .str "a"), ("type", .str "unsigned"),
              ("context", .numv (.num 0)), ("optional", .boolv true)],
        .obj [("name", .str "b"), ("type", .str "integer"),
              ("context", .numv (.num 255))]] : List JSVal)[1]? = some e ∧
      elementContext e = some (.numv (.num 255)) := by
  obtain ⟨e, h1, h2⟩ := c1_context_rule "SEQUENCE" 0
    [.mk { name := some "a", type := some "Unsigned",
           number := some (.num 0), optional := true } none,
     .mk { name := some "b", type := some "Integer",
           number := some (.num 255) } none]
    [.obj [("name", .str "a"), ("type", .str "unsigned"),
           ("context", .numv (.num 0)), ("optional", .boolv true)],
     .obj [("name", .str "b"), ("type", .str "integer"),
           ("context", .numv (.num 255))]]
    (by rfl) 1
    (.mk { name := some "b", type := some "Integer",
           number := some (.num 255) } none)
    (by rfl)
  refine ⟨e, h1, ?_⟩
  rw [h2]
  rfl

/-- The enhancement step leaves the traits of a definition untouched when its
name is none of the five special names and it is not extensible. -/
theorem enhanceKnownTypes_id (d : RawDef) (traits : List (String × JSVal))
    (hname : ∀ s ∈ specialNames, d.core.name ≠ some s)
    (hext : d.core.extensible = false) :
    enhanceKnownTypes d traits = traits := by
  have h1 := hname "BACnetEngineeringUnits" (by simp [specialNames])
  have h2 := hname "BACnetPropertyIdentifier" (by simp [specialNames])
  have h3 := hname "BACnetAuditOperationFlags" (by simp [specialNames])
  have h4 := hname "BACnetObjectTypesSupported" (by simp [specialNames])
  have h5 := hname "BACnetServicesSupported" (by simp [specialNames])
  simp [enhanceKnownTypes, h1, h2, h3, h4, h5, hext]

/-- C2 (amended): a generic enumeration or bit-string — nonempty items, a
name outside the five special-cased ones, not extensible — normalizes to a
type object holding exactly the base tag and the sorted values (bits) array;
no range, no length, and no extensible flag is computed, contrary to the
claimed bounds of min and max plus one. -/
theorem c2_generic_no_range (core : RawCore) (l : List RawDef) (nm : String)
    (hnm : core.name = some nm)
    (hname : ∀ s ∈ specialNames, core.name ≠ some s)
    (hext : core.extensible = false)
    (hemp : l.isEmpty = false)
    (hall : l.all (fun i => i.core.name.isSome) = true)
    (hty : core.type = some "Enumerated" ∨ core.type = some "BitString") :
    typeKeys (normalizeDefinition (.mk core (some l)) 0) =
      some ["base",
        if core.type = some "Enumerated" then "values" else "bits"] := by
  have hall2 : (jsSortByNumber l).all (fun i => i.core.name.isSome) = true := by
    rw [all_jsSortByNumber]; exact hall
  have hni := normalizeItem_eq (.mk core (some l)) nm (some "")
    (by simpa [RawDef.core] using hnm)
  have hl1 : lookupField (itemFields nm (some "")) "type" = none :=
    lookupField_itemFields nm (some "") "type" (by decide) (by decide)
  rcases hty with hty | hty
  · obtain ⟨vs, hvs⟩ := normSimpleElems_ok "constant" (jsSortByNumber l) hall2
    have hid : enhanceKnownTypes (RawDef.mk core (some l))
        [("values", .arr vs)] = [("values", .arr vs)] :=
      enhanceKnownTypes_id _ _ (by simpa [RawDef.core] using hname)
        (by simpa [RawDef.core] using hext)
    simp [normalizeDefinition, hni, hty, hemp, itemsNumberOf, itemsNameOf,
      hvs, hid, withTraits, typeKeys, lookupField_append, hl1, lookupField,
      objKeys]
  · obtain ⟨vs, hvs⟩ := normSimpleElems_ok "position" (jsSortByNumber l) hall2
    have hid : enhanceKnownTypes (RawDef.mk core (some l))
        [("bits", .arr vs)] = [("bits", .arr vs)] :=
      enhanceKnownTypes_id _ _ (by simpa [RawDef.core] using hname)
        (by simpa [RawDef.core] using hext)
    simp [normalizeDefinition, hni, hty, hemp, itemsNumberOf, itemsNameOf,
      hvs, hid, withTraits, typeKeys, lookupField_append, hl1, lookupField,
      objKeys]

/-- Witness for C2 at the generic enumeration C2State: the normalized type
object holds exactly the base tag and the values array. -/
theorem c2_generic_no_range_witness :
    c2raw.core.extensible = false ∧
    typeKeys (normalizeDefinition c2raw 0) = some ["base", "values"] := by
  have h := c2_generic_no_range
    { name := some "C2State", type := some "Enumerated" }
    [.mk { name := some "on", number := some (.num 1) } none,
     .mk { name := some "off", number := some (.num 0) } none]
    "C2State" rfl (by decide) rfl rfl (by rfl) (Or.inl rfl)
  exact ⟨rfl, by simpa [c2raw] using h⟩

/-! ## Termination of the parser: length bounds for the section parsers -/

/-- A successful base-type parse never lengthens the remaining text. -/
theorem parseBaseType_le (s : PState) (ty : String) (s' : PState)
    (h : parseBaseType s = .ok (ty, s')) :
    s'.text.length ≤ s.text.length := by
  simp only [parseBaseType] at h
  cases h1 : tryM (litM "ABSTRACT-SYNTAX.&Type") s with
  | some pr =>
      obtain ⟨u, s1⟩ := pr
      rw [h1] at h
      simp only [Except.ok.injEq, Prod.mk.injEq] at h
      obtain ⟨-, hs⟩ := h
      subst hs
      exact le_of_lt (tryM_lt _
        (fun cs a rest hm => litM_lt _ cs a rest (by decide) hm) s u s1 h1).1
  | none =>
      rw [h1] at h
      cases h2 : tryM (litM "ENUMERATED") s with
      | some pr =>
          obtain ⟨u, s1⟩ := pr
          rw [h2] at h
          simp only [Except.ok.injEq, Prod.mk.injEq] at h
          obtain ⟨-, hs⟩ := h
          subst hs
          exact le_of_lt (tryM_lt _
            (fun cs a rest hm => litM_lt _ cs a rest (by decide) hm) s u s1 h2).1
      | none =>
          rw [h2] at h
          cases h3 : tryM (twoWordM "BIT" "STRING") s with
          | some pr =>
              obtain ⟨u, s1⟩ := pr
              rw [h3] at h
              simp only [Except.ok.injEq, Prod.mk.injEq] at h
              obtain ⟨-, hs⟩ := h
              subst hs
              exact le_of_lt
                (tryM_lt _ (twoWordM_lt "BIT" "STRING") s u s1 h3).1
          | none =>
              rw [h3] at h
              cases h4 : tryM (twoWordM "OCTET" "STRING") s with
              | some pr =>
                  obtain ⟨u, s1⟩ := pr
                  rw [h4] at h
                  simp only [Except.ok.injEq, Prod.mk.injEq] at h
                  obtain ⟨-, hs⟩ := h
                  subst hs
                  exact le_of_lt
                    (tryM_lt _ (twoWordM_lt "OCTET" "STRING") s u s1 h4).1
              | none =>
                  rw [h4] at h
                  cases h5 : reqM upperIdentM s with
                  | error e => rw [h5] at h; simp at h
                  | ok pr =>
                      obtain ⟨nm, s1⟩ := pr
                      rw [h5] at h
                      simp only [Except.ok.injEq, Prod.mk.injEq] at h
                      obtain ⟨-, hs⟩ := h
                      subst hs
                      exact le_of_lt (reqM_lt _ upperIdentM_lt s nm s1 h5).1

/-- A successful range-constraint parse never lengthens the remaining
text. -/
theorem parseRangeConstraint_le (isSize : Bool) (core : RawCore) (s : PState)
    (core' : RawCore) (s' : PState)
    (h : parseRangeConstraint isSize core s = .ok (core', s')) :
    s'.text.length ≤ s.text.length := by
  simp only [parseRangeConstraint] at h
  cases hm : tryM rangeM s with
  | none =>
      rw [hm] at h
      cases isSize with
      | true => simp at h
      | false =>
          simp only [Except.ok.injEq, Prod.mk.injEq] at h
          obtain ⟨-, hs⟩ := h
          subst hs
          exact le_rfl
  | some pr =>
      obtain ⟨⟨lo, hi?⟩, s1⟩ := pr
      rw [hm] at h
      by_cases hgt : lo.jsGt (hi?.getD lo) = true
      · simp only [hgt, if_true] at h
        simp at h
      · simp only [Bool.not_eq_true] at hgt
        simp only [hgt, Bool.false_eq_true, if_false] at h
        simp only [Except.ok.injEq, Prod.mk.injEq] at h
        obtain ⟨-, hs⟩ := h
        subst hs
        exact le_of_lt (tryM_lt rangeM rangeM_lt s _ s1 hm).1

/-- A successful size-section parse never lengthens the remaining text. -/
theorem parseSizeSection_le (core : RawCore) (s : PState)
    (core' : RawCore) (s' : PState)
    (h : parseSizeSection core s = .ok (core', s')) :
    s'.text.length ≤ s.text.length := by
  simp only [parseSizeSection] at h
  cases hk : tryM sizeKwM s with
  | none =>
      rw [hk] at h
      simp only [Except.ok.injEq, Prod.mk.injEq] at h
      obtain ⟨-, hs⟩ := h
      subst hs
      exact le_rfl
  | some pr =>
      obtain ⟨paren, s1⟩ := pr
      rw [hk] at h
      simp only at h
      have e1 := (tryM_lt sizeKwM sizeKwM_lt s paren s1 hk).1
      cases hr : parseRangeConstraint true core s1 with
      | error e => rw [hr] at h; simp at h
      | ok pr2 =>
          obtain ⟨core2, s2⟩ := pr2
          rw [hr] at h
          have e2 := parseRangeConstraint_le true core s1 core2 s2 hr
          cases paren with
          | false =>
              simp only [Bool.false_eq_true, if_false] at h
              simp only [Except.ok.injEq, Prod.mk.injEq] at h
              obtain ⟨-, hs⟩ := h
              subst hs
              omega
          | true =>
              simp only [if_true] at h
              cases hc : reqM (litM ")") s2 with
              | error e => rw [hc] at h; simp at h
              | ok pr3 =>
                  obtain ⟨u, s3⟩ := pr3
                  rw [hc] at h
                  simp only [Except.ok.injEq, Prod.mk.injEq] at h
                  obtain ⟨-, hs⟩ := h
                  subst hs
                  have e3 := (reqM_lt _
                    (fun cs a rest hm => litM_lt _ cs a rest (by decide) hm)
                    s2 u s3 hc).1
                  omega

/-- The separator step never lengthens the remaining text, and consumes at
least the comma when the loop continues. -/
theorem sepStep_le (enclTy : String) (s : PState) (r : SepStep) (s' : PState)
    (h : sepStep enclTy s = (r, s')) :
    s'.text.length ≤ s.text.length ∧
    (r = SepStep.more → s'.text.length < s.text.length) := by
  simp only [sepStep] at h
  cases hc : tryM (litM ",") s with
  | none =>
      rw [hc] at h
      simp only [Prod.mk.injEq] at h
      obtain ⟨hr, hs⟩ := h
      subst hs
      exact ⟨le_rfl, fun hm => by rw [← hr] at hm; cases hm⟩
  | some pr =>
      obtain ⟨u, s1⟩ := pr
      rw [hc] at h
      simp only at h
      have e1 := (tryM_lt _
        (fun cs a rest hm => litM_lt _ cs a rest (by decide) hm) s u s1 hc).1
      by_cases he : enclTy ≠ "SEQUENCE"
      · rw [if_pos he] at h
        cases hd : tryM (litM "...") s1 with
        | none =>
            rw [hd] at h
            simp only [Prod.mk.injEq] at h
            obtain ⟨hr, hs⟩ := h
            subst hs
            exact ⟨le_of_lt e1, fun _ => e1⟩
        | some pr2 =>
            obtain ⟨u2, s2⟩ := pr2
            rw [hd] at h
            simp only [Prod.mk.injEq] at h
            obtain ⟨hr, hs⟩ := h
            subst hs
            have e2 := (tryM_lt _
              (fun cs a rest hm => litM_lt _ cs a rest (by decide) hm)
              s1 u2 s2 hd).1
            exact ⟨by omega, fun hm => by rw [← hr] at hm; cases hm⟩
      · rw [if_neg he] at h
        simp only [Prod.mk.injEq] at h
        obtain ⟨hr, hs⟩ := h
        subst hs
        exact ⟨le_of_lt e1, fun _ => e1⟩

/-- A failing leaf settles both termination conclusions at once. -/
theorem err_leaf {α : Type} {e : PError} {res : PResult (α × PState)}
    (P : α → PState → Prop) (h : PResult.err e = res) :
    ¬res = .fuelOut ∧
    ∀ (r : α) (s' : PState), res = .ok (r, s') → P r s' := by
  subst h
  refine ⟨by simp, ?_⟩
  intro r s' hr
  simp at hr

/-- A succeeding leaf settles both termination conclusions given the bound at
the produced value. -/
theorem ok_leaf {α : Type} {v : α} {sv : PState} {res : PResult (α × PState)}
    (P : α → PState → Prop) (h : PResult.ok (v, sv) = res) (hp : P v sv) :
    ¬res = .fuelOut ∧
    ∀ (r : α) (s' : PState), res = .ok (r, s') → P r s' := by
  subst h
  refine ⟨by simp, ?_⟩
  intro r s' hr
  simp only [PResult.ok.injEq, Prod.mk.injEq] at hr
  obtain ⟨h1, h2⟩ := hr
  subst h1
  subst h2
  exact hp

/-- With fuel of at least six steps per remaining character plus the call
rank, the fused parser never runs out of fuel, and a successful call never
lengthens the remaining text, with parseDefinition consuming at least one
character. -/
theorem step_spec : ∀ (fuel : ℕ) (c : PCall) (s : PState)
    (res : PResult (RetTy c × PState)), step fuel c s = res →
    6 * s.text.length + rank c ≤ fuel →
    ¬res = .fuelOut ∧
    ∀ (r : RetTy c) (s' : PState), res = .ok (r, s') →
      s'.text.length + consumed c ≤ s.text.length := by
  intro fuel
  induction fuel with
  | zero =>
      intro c s res h hle
      exfalso
      cases c <;> simp only [rank] at hle <;> omega
  | succ f ih =>
      intro c s res h hle
      cases c with
      | ptype core =>
          simp only [rank] at hle
          simp only [step] at h
          cases hm : tryM seqOfM s with
          | none =>
              rw [hm] at h
              simp only at h
              have hlen1 : s.text.length ≤ s.text.length := le_rfl
              cases hb : parseBaseType s with
              | error e => rw [hb] at h; simp only at h; exact err_leaf _ h
              | ok pb =>
                  obtain ⟨ty, s₂⟩ := pb
                  rw [hb] at h
                  simp only at h
                  have e2 := parseBaseType_le s ty s₂ hb
                  split at h
                  · exact err_leaf _ h
                  · rename_i core₃ s₃ heq
                    have e3 := parseSizeSection_le _ s₂ core₃ s₃ heq
                    cases hr : parseRangeConstraint false core₃ s₃ with
                    | error e =>
                        rw [hr] at h
                        simp only at h
                        exact err_leaf _ h
                    | ok pr4 =>
                        obtain ⟨core₄, s₄⟩ := pr4
                        rw [hr] at h
                        simp only at h
                        have e4 := parseRangeConstraint_le false core₃ s₃
                          core₄ s₄ hr
                        have hrec := ih _ _ _ h (by simp only [rank]; omega)
                        refine ⟨hrec.1, ?_⟩
                        intro r s' hrr
                        have hb2 := hrec.2 r s' hrr
                        simp only [consumed] at hb2 ⊢
                        omega
          | some pr =>
              obtain ⟨szOpt, s₀⟩ := pr
              rw [hm] at h
              simp only at h
              have hlen1 : s₀.text.length ≤ s.text.length :=
                le_of_lt (tryM_lt seqOfM seqOfM_lt s szOpt s₀ hm).1
              cases hb : parseBaseType s₀ with
              | error e => rw [hb] at h; simp only at h; exact err_leaf _ h
              | ok pb =>
                  obtain ⟨ty, s₂⟩ := pb
                  rw [hb] at h
                  simp only at h
                  have e2 := parseBaseType_le s₀ ty s₂ hb
                  split at h
                  · exact err_leaf _ h
                  · rename_i core₃ s₃ heq
                    have e3 := parseSizeSection_le _ s₂ core₃ s₃ heq
                    cases hr : parseRangeConstraint false core₃ s₃ with
                    | error e =>
                        rw [hr] at h
                        simp only at h
                        exact err_leaf _ h
                    | ok pr4 =>
                        obtain ⟨core₄, s₄⟩ := pr4
                        rw [hr] at h
                        simp only at h
                        have e4 := parseRangeConstraint_le false core₃ s₃
                          core₄ s₄ hr
                        have hrec := ih _ _ _ h (by simp only [rank]; omega)
                        refine ⟨hrec.1, ?_⟩
                        intro r s' hrr
                        have hb2 := hrec.2 r s' hrr
                        simp only [consumed] at hb2 ⊢
                        omega
      | pitems core =>
          simp only [rank] at hle
          simp only [step] at h
          cases hbr : tryM (litM "\x7b") s with
          | none =>
              rw [hbr] at h
              simp only at h
              exact ok_leaf _ h (by simp only [consumed]; omega)
          | some pr =>
              obtain ⟨u, s₁⟩ := pr
              rw [hbr] at h
              simp only at h
              have e1 := (tryM_lt _
                (fun cs a rest hm => litM_lt _ cs a rest (by decide) hm)
                s u s₁ hbr).1
              split at h
              · exact err_leaf _ h
              · split at h
                · rename_i e heq
                  exact err_leaf _ h
                · rename_i heq
                  exact absurd rfl
                    (ih _ _ _ heq (by simp only [rank]; omega)).1
                · rename_i items ext s₂ heq
                  have e2 := (ih _ _ _ heq
                    (by simp only [rank]; omega)).2 (items, ext) s₂ rfl
                  simp only [consumed] at e2
                  cases hcl : reqM (litM "\x7d") s₂ with
                  | error e =>
                      rw [hcl] at h
                      simp only at h
                      exact err_leaf _ h
                  | ok pr3 =>
                      obtain ⟨u3, s₃⟩ := pr3
                      rw [hcl] at h
                      simp only at h
                      have e3 := (reqM_lt _
                        (fun cs a rest hm =>
                          litM_lt _ cs a rest (by decide) hm)
                        s₂ u3 s₃ hcl).1
                      exact ok_leaf _ h (by simp only [consumed]; omega)
      | iloop isSimple enclTy =>
          simp only [rank] at hle
          simp only [step] at h
          rcases hsk : skipWC s with ⟨s₁, more⟩
          rw [hsk] at h
          simp only at h
          have e1 : s₁.text.length ≤ s.text.length := by
            have := (skipWC_le s).1
            rw [hsk] at this
            simpa using this
          cases more with
          | false =>
              rw [if_pos (by decide)] at h
              exact ok_leaf _ h (by simp only [consumed]; omega)
          | true =>
              rw [if_neg (by decide)] at h
              cases hn : reqM itemNameM s₁ with
              | error e => rw [hn] at h; simp only at h; exact err_leaf _ h
              | ok pr =>
                  obtain ⟨nm, s₂⟩ := pr
                  rw [hn] at h
                  simp only at h
                  have e2 := (reqM_lt _ itemNameM_lt s₁ nm s₂ hn).1
                  cases isSimple with
                  | true =>
                      rw [if_pos (by decide)] at h
                      cases hsn : reqM simpleNumM s₂ with
                      | error e =>
                          rw [hsn] at h
                          simp only at h
                          exact err_leaf _ h
                      | ok pr2 =>
                          obtain ⟨n, s₃⟩ := pr2
                          rw [hsn] at h
                          simp only at h
                          have e3 := (reqM_lt _ simpleNumM_lt s₂ n s₃ hsn).1
                          have hrec := ih _ _ _ h
                            (by simp only [rank]; omega)
                          refine ⟨hrec.1, ?_⟩
                          intro r s' hrr
                          have hb2 := hrec.2 r s' hrr
                          simp only [consumed] at hb2 ⊢
                          omega
                  | false =>
                      rw [if_neg (by decide)] at h
                      cases hct : tryM ctxTagM s₂ with
                      | none =>
                          rw [hct] at h
                          simp only at h
                          split at h
                          · rename_i e heq
                            exact err_leaf _ h
                          · rename_i heq
                            exact absurd rfl
                              (ih _ _ _ heq (by simp only [rank]; omega)).1
                          · rename_i icore2 iitems s₄ heq
                            have e4 := (ih _ _ _ heq
                              (by simp only [rank]; omega)).2
                              (icore2, iitems) s₄ rfl
                            simp only [consumed] at e4
                            cases hop : tryM (litM "OPTIONAL") s₄ with
                            | none =>
                                rw [hop] at h
                                simp only at h
                                have hrec := ih _ _ _ h
                                  (by simp only [rank]; omega)
                                refine ⟨hrec.1, ?_⟩
                                intro r s' hrr
                                have hb2 := hrec.2 r s' hrr
                                simp only [consumed] at hb2 ⊢
                                omega
                            | some pr5 =>
                                obtain ⟨u5, s₅⟩ := pr5
                                rw [hop] at h
                                simp only at h
                                have e5 : s₅.text.length ≤ s₄.text.length :=
                                  le_of_lt (tryM_lt _
                                    (fun cs a rest hm =>
                                      litM_lt _ cs a rest (by decide) hm)
                                    s₄ u5 s₅ hop).1
                                have hrec := ih _ _ _ h
                                  (by simp only [rank]; omega)
                                refine ⟨hrec.1, ?_⟩
                                intro r s' hrr
                                have hb2 := hrec.2 r s' hrr
                                simp only [consumed] at hb2 ⊢
                                omega
                      | some pr3 =>
                          obtain ⟨ntag, s₃⟩ := pr3
                          rw [hct] at h
                          simp only at h
                          have e3 : s₃.text.length ≤ s₂.text.length :=
                            le_of_lt
                              (tryM_lt ctxTagM ctxTagM_lt s₂ ntag s₃ hct).1
                          split at h
                          · rename_i e heq
                            exact err_leaf _ h
                          · rename_i heq
                            exact absurd rfl
                              (ih _ _ _ heq (by simp only [rank]; omega)).1
                          · rename_i icore2 iitems s₄ heq
                            have e4 := (ih _ _ _ heq
                              (by simp only [rank]; omega)).2
                              (icore2, iitems) s₄ rfl
                            simp only [consumed] at e4
                            cases hop : tryM (litM "OPTIONAL") s₄ with
                            | none =>
                                rw [hop] at h
                                simp only at h
                                have hrec := ih _ _ _ h
                                  (by simp only [rank]; omega)
                                refine ⟨hrec.1, ?_⟩
                                intro r s' hrr
                                have hb2 := hrec.2 r s' hrr
                                simp only [consumed] at hb2 ⊢
                                omega
                            | some pr5 =>
                                obtain ⟨u5, s₅⟩ := pr5
                                rw [hop] at h
                                simp only at h
                                have e5 : s₅.text.length ≤ s₄.text.length :=
                                  le_of_lt (tryM_lt _
                                    (fun cs a rest hm =>
                                      litM_lt _ cs a rest (by decide) hm)
                                    s₄ u5 s₅ hop).1
                                have hrec := ih _ _ _ h
                                  (by simp only [rank]; omega)
                                refine ⟨hrec.1, ?_⟩
                                intro r s' hrr
                                have hb2 := hrec.2 r s' hrr
                                simp only [consumed] at hb2 ⊢
                                omega
      | itail isSimple enclTy item =>
          simp only [rank] at hle
          simp only [step] at h
          rcases hsp : sepStep enclTy s with ⟨r0, s₀⟩
          rw [hsp] at h
          have hsep := sepStep_le enclTy s r0 s₀ hsp
          cases r0 with
          | stop =>
              simp only at h
              exact ok_leaf _ h
                (by simp only [consumed]; have := hsep.1; omega)
          | dots =>
              simp only at h
              exact ok_leaf _ h
                (by simp only [consumed]; have := hsep.1; omega)
          | more =>
              simp only at h
              have e0 : s₀.text.length < s.text.length := hsep.2 rfl
              split at h
              · rename_i e heq
                exact err_leaf _ h
              · rename_i heq
                exact absurd rfl
                  (ih _ _ _ heq (by simp only [rank]; omega)).1
              · rename_i items ext s₂ heq
                have e2 := (ih _ _ _ heq
                  (by simp only [rank]; omega)).2 (items, ext) s₂ rfl
                simp only [consumed] at e2
                exact ok_leaf _ h (by simp only [consumed]; omega)
      | pdef =>
          simp only [rank] at hle
          simp only [step] at h
          cases hd : reqM defNameM s with
          | error e => rw [hd] at h; simp only at h; exact err_leaf _ h
          | ok pr =>
              obtain ⟨nm, s₁⟩ := pr
              rw [hd] at h
              simp only at h
              have e1 := (reqM_lt _ defNameM_lt s nm s₁ hd).1
              cases ht : tryM appTagM s₁ with
              | none =>
                  rw [ht] at h
                  simp only at h
                  split at h
                  · rename_i e heq
                    exact err_leaf _ h
                  · rename_i heq
                    exact absurd rfl
                      (ih _ _ _ heq (by simp only [rank]; omega)).1
                  · rename_i core2 items2 s₃ heq
                    have e3 := (ih _ _ _ heq
                      (by simp only [rank]; omega)).2 (core2, items2) s₃ rfl
                    simp only [consumed] at e3
                    exact ok_leaf _ h (by simp only [consumed]; omega)
              | some pr2 =>
                  obtain ⟨ntag, s₂⟩ := pr2
                  rw [ht] at h
                  simp only at h
                  have e2 : s₂.text.length ≤ s₁.text.length :=
                    le_of_lt (tryM_lt appTagM appTagM_lt s₁ ntag s₂ ht).1
                  split at h
                  · rename_i e heq
                    exact err_leaf _ h
                  · rename_i heq
                    exact absurd rfl
                      (ih _ _ _ heq (by simp only [rank]; omega)).1
                  · rename_i core2 items2 s₃ heq
                    have e3 := (ih _ _ _ heq
                      (by simp only [rank]; omega)).2 (core2, items2) s₃ rfl
                    simp only [consumed] at e3
                    exact ok_leaf _ h (by simp only [consumed]; omega)
      | ptop =>
          simp only [rank] at hle
          simp only [step] at h
          rcases hsk : skipWC s with ⟨s₁, more⟩
          rw [hsk] at h
          simp only at h
          have e1 : s₁.text.length ≤ s.text.length := by
            have := (skipWC_le s).1
            rw [hsk] at this
            simpa using this
          cases more with
          | false =>
              rw [if_pos (by decide)] at h
              exact ok_leaf _ h (by simp only [consumed]; omega)
          | true =>
              rw [if_neg (by decide)] at h
              split at h
              · rename_i e heq
                exact err_leaf _ h
              · rename_i heq
                exact absurd rfl
                  (ih _ _ _ heq (by simp only [rank]; omega)).1
              · rename_i d s₂ heq
                have e2 := (ih _ _ _ heq
                  (by simp only [rank]; omega)).2 d s₂ rfl
                simp only [consumed] at e2
                split at h
                · rename_i e heq2
                  exact err_leaf _ h
                · rename_i heq2
                  exact absurd rfl
                    (ih _ _ _ heq2 (by simp only [rank]; omega)).1
                · rename_i ds s₃ heq2
                  have e3 := (ih _ _ _ heq2
                    (by simp only [rank]; omega)).2 ds s₃ rfl
                  simp only [consumed] at e3
                  exact ok_leaf _ h (by simp only [consumed]; omega)

/-- C8: on every input string, parse terminates with either a result list or
a structured failure; the fuel of six steps per character plus the top-level
call depth never runs out because every loop iteration consumes at least one
character of the remaining text. -/
theorem c8_parse_total (input : String) :
    (∃ ds, parseRun input = .ok ds) ∨ (∃ e, parseRun input = .err e) := by
  rcases hb : findBadIdx (normalizeNewlines input.toList) with _ | i
  · have hspec := step_spec
      (6 * (normalizeNewlines input.toList).length + 6) .ptop
      ⟨normalizeNewlines input.toList, normalizeNewlines input.toList, ""⟩
      (step (6 * (normalizeNewlines input.toList).length + 6) .ptop
        ⟨normalizeNewlines input.toList, normalizeNewlines input.toList, ""⟩)
      rfl (by simp only [rank]; omega)
    rcases hres : step (6 * (normalizeNewlines input.toList).length + 6) .ptop
        ⟨normalizeNewlines input.toList, normalizeNewlines input.toList, ""⟩
      with a | e | _
    · obtain ⟨ds, s'⟩ := a
      left
      refine ⟨ds, ?_⟩
      simp only [parseRun, topLoopF]
      rw [hb, hres]
    · right
      refine ⟨e, ?_⟩
      simp only [parseRun, topLoopF]
      rw [hb, hres]
    · rw [hres] at hspec
      exact absurd rfl hspec.1
  · right
    refine ⟨⟨invalidMsg, i⟩, ?_⟩
    simp only [parseRun]
    rw [hb]

end Bacnet
